import Mathlib

/-!
# Verification of the AgiAgentIskra memory / facet / phase core

Shallow embedding of the Python sources:

* `src/src/iskra_core/phase_manager.py`           — `PhaseManager.step`
* `src/src/iskra_core/facet_activation_engine.py` — `FacetActivationEngine.select_facets`
* `src/src/iskra_core/memory_manager.py`          — `MemoryManager.stitch` et al.
* `src/monoliths/iskra_projects_monolith.py`      — `Memory` (add/dedupe/validate/upgrade),
  `redact_pii`, `days_from_conf`, date helpers.

Python floats are modelled as `Rat` (all literals involved are exact decimals),
Python dicts of metrics as association lists with `get`-with-default, and
fallible code as `Except String`.  Decimal literals are spelled `mkRat p q`
(`mkRat 6 10` is `0.6`): Mathlib's `OfScientific`/`Div` on `Rat` are
irreducible, which would block kernel evaluation of concrete runs.
-/

namespace Iskra

/-- A metrics snapshot: Python `Dict[str, float]`, modelled as an association
list of rationals.  `metrics.get(k, 0.0)` becomes `mget`. -/
def Metrics := List (String × Rat)

/-- `metrics.get(key, default)` — first binding wins, as in a Python dict
(we only build lists with distinct keys, matching dict semantics). -/
def mget (m : Metrics) (key : String) (d : Rat) : Rat :=
  match m.find? (fun p => p.1 == key) with
  | some p => p.2
  | none => d

/-! ## Phase manager (`phase_manager.py`)

```python
def step(self, metrics: Metrics) -> Phase:
    if metrics.get('silence_mass', 0) > 0.6:
        self.phase = 'Молчание'
    elif metrics.get('chaos', 0) > 0.6:
        self.phase = 'Переход'
    elif metrics.get('clarity', 0) > 0.7:
        self.phase = 'Ясность'
    return self.phase
```

A phase is one of the eight string literals of the `Phase` `Literal` type; the
manager's state is just its current phase, so `step` is a function
`Phase → Metrics → Phase` returning the new state (which the method also
returns). -/

/-- Default-constructed `PhaseManager()` starts in phase `'Переход'`. -/
def phaseInit : String := "Переход"

/-- `PhaseManager.step`, state-passing form. -/
def step (phase : String) (metrics : Metrics) : String :=
  if mget metrics "silence_mass" 0 > mkRat 6 10 then "Молчание"
  else if mget metrics "chaos" 0 > mkRat 6 10 then "Переход"
  else if mget metrics "clarity" 0 > mkRat 7 10 then "Ясность"
  else phase

/-! ## Facet activation engine (`facet_activation_engine.py`) -/

/-- The `THRESHOLDS` table, in Python dict insertion order.  Each facet maps to
a list of `(metric, (min, max))` conditions. -/
def THRESHOLDS : List (String × List (String × Rat × Rat)) :=
  [("Kain",     [("pain",    (mkRat 7 10, mkRat 101 100))]),
   ("Pino",     [("pain",    (mkRat 5 10, mkRat 7 10))]),
   ("Sam",      [("clarity", (mkRat 0 1, mkRat 7 10))]),
   ("Anhantra", [("trust",   (mkRat 0 1, mkRat 75 100))]),
   ("Huyndun",  [("chaos",   (mkRat 6 10, mkRat 101 100))]),
   ("Iskriv",   [("drift",   (mkRat 3 10, mkRat 101 100))]),
   ("Iskra",    []),
   ("Maki",     [])]

/-- The inline `order` priority table of `select_facets`;
`order.get(x, 99)` becomes `orderKey`. -/
def orderKey (f : String) : Nat :=
  if f = "Anhantra" then 0
  else if f = "Kain" then 1
  else if f = "Sam" then 2
  else if f = "Iskra" then 3
  else if f = "Iskriv" then 4
  else if f = "Pino" then 5
  else if f = "Huyndun" then 6
  else if f = "Maki" then 7
  else 99

/-- One facet's activation test: the inner
`for m, (mn, mx) in cond.items(): if mn <= val < mx: append; break`
— the facet is appended iff some listed metric is in its half-open range. -/
def condHit (metrics : Metrics) (cond : List (String × Rat × Rat)) : Bool :=
  cond.any (fun c => decide (c.2.1 ≤ mget metrics c.1 0 ∧ mget metrics c.1 0 < c.2.2))

/-- The `active` list before sorting: iterate `THRESHOLDS` in order, skip
facets with an empty condition dict (`if not cond: continue`), append each
facet whose condition hits. -/
def activeList (metrics : Metrics) : List String :=
  (THRESHOLDS.filter (fun fc => !fc.2.isEmpty && condHit metrics fc.2)).map Prod.fst

/-- The sort relation of `active.sort(key=lambda x: order.get(x, 99))`. -/
def keyLe (a b : String) : Prop := orderKey a ≤ orderKey b

instance : DecidableRel keyLe := fun a b => Nat.decLe (orderKey a) (orderKey b)

/-- `active.sort(key=lambda x: order.get(x, 99))` — a stable sort by
`orderKey`, modelled as insertion sort (stable, like Python's sort: folding
from the right, each earlier element is inserted *before* the
equal-key elements that followed it). -/
def sortByKey (l : List String) : List String := List.insertionSort keyLe l

/-- The engine's `Context` argument (`facets.py`): a `TypedDict` with
optional `phase`/`state`/`ritual`/`history` entries.  `select_facets` never
reads it. -/
structure Context where
  phase : Option String := none
  state : Option String := none
  ritual : Option String := none
  history : List String := []

/-- The engine's persistent state: just `last_active`. -/
structure FacetActivationEngine where
  last_active : List String := []

/-- `FacetActivationEngine.select_facets(metrics, ctx)`: computes the active
list, sorts it by the priority table, stores it in `last_active` and returns
it.  State-passing form returning `(result, new engine state)`. -/
def select_facets (_e : FacetActivationEngine) (metrics : Metrics) (_ctx : Context) :
    List String × FacetActivationEngine :=
  let active := sortByKey (activeList metrics)
  (active, ⟨active⟩)

/-- The returned list alone (the value the Python method returns). -/
def selectFacetsResult (e : FacetActivationEngine) (metrics : Metrics) (ctx : Context) :
    List String :=
  (select_facets e metrics ctx).1

/-! ## PII redaction (`iskra_projects_monolith.py`)

```python
PII_PATTERNS = [
    (re.compile(r"(?i)\b[A-Z0-9._%+-]+@[A-Z0-9.-]+\.[A-Z]{2,}\b"), "<EMAIL>"),
    (re.compile(r"(?<!\d)(\+?\d[\d \-()]{7,}\d)(?!\d)"), "<PHONE>"),
    (re.compile(r"\b(?:\d[ -]?){13,19}\b"), "<CARD>"),
    (re.compile(r"\b[A-Z]{2}\d{2}[A-Z0-9]{10,30}\b"), "<IBAN?>"),
    (re.compile(r"(?i)\b(passport|паспорт)[#: ]*\w+\b"), "<PASS>"),
]
def redact_pii(text):
    out = text
    for pat, rep in PII_PATTERNS:
        out = pat.sub(rep, out)
    return out
```

Each pattern is embedded as a deterministic matcher
`Option Char → List Char → Option Nat`: given the character preceding the
current position (for look-behind and `\b`) and the remaining text, it
returns the length of the (unique leftmost) match starting exactly here, or
`none`.  The determinization of each pattern's backtracking is derived in
the comment above its matcher.  `re.sub` itself is `subGo`: scan left to
right, at each position try the matcher; on a match emit the replacement and
resume after the match (Python's `sub` finds non-overlapping leftmost
matches and look-arounds read the original characters, which the scanner
preserves by tracking the previous character of the *original* text).

`\w` (and hence `\b`) is Unicode in Python; the texts this code processes
are ASCII, Latin-1 and Cyrillic, so word characters are modelled as ASCII
alphanumerics, `_`, the Latin-1 letters, and the Cyrillic block
U+0400–U+04FF. -/

/-- Python `\w` restricted to the scripts occurring in this code base. -/
def isWordChar (c : Char) : Bool :=
  c.isAlphanum || c = '_' ||
  (0x400 ≤ c.toNat && c.toNat ≤ 0x4FF) ||
  (0xC0 ≤ c.toNat && c.toNat ≤ 0xFF && c.toNat ≠ 0xD7 && c.toNat ≠ 0xF7) ||
  c.toNat = 0xAA || c.toNat = 0xB5 || c.toNat = 0xBA

/-- Word-ness of an optional character (`none` = out of bounds = non-word). -/
def wordAt : Option Char → Bool
  | none => false
  | some c => isWordChar c

/-- `\b` between two adjacent (possibly out-of-range) characters. -/
def boundary (a b : Option Char) : Bool := wordAt a != wordAt b

/-- `(?i)[A-Z0-9._%+-]` — the e-mail local-part class. -/
def isLocalChar (c : Char) : Bool :=
  c.isAlphanum || c = '.' || c = '_' || c = '%' || c = '+' || c = '-'

/-- `(?i)[A-Z0-9.-]` — the e-mail domain class. -/
def isDomChar (c : Char) : Bool :=
  c.isAlphanum || c = '.' || c = '-'

/-- `(?i)[A-Z]` — ASCII letter (the TLD class). -/
def isAsciiLetter (c : Char) : Bool := c.isAlpha

/-- Checks one candidate domain split of the e-mail pattern.  `dom` is the
maximal `[A-Z0-9.-]` run after the `@`, `after` the text following it, `d`
the index in `dom` of the candidate `\.`.  The trailing `[A-Z]{2,}\b` can
only succeed on the *maximal* letter run after the dot (a shorter greedy
choice would put a letter, a word character, right after the match and kill
the `\b`), so the split is valid iff that run has length ≥ 2 and the next
character is not a word character.  Returns the length consumed inside
`dom`. -/
def emailTld (dom after : List Char) (d : Nat) : Option Nat :=
  let tld := (dom.drop (d + 1)).takeWhile isAsciiLetter
  let nxt := ((dom.drop (d + 1 + tld.length)) ++ after).head?
  if 2 ≤ tld.length ∧ wordAt nxt = false then some (d + 1 + tld.length) else none

/-- `(?i)\b[A-Z0-9._%+-]+@[A-Z0-9.-]+\.[A-Z]{2,}\b` at the current position.
The local part is the maximal local-class run (the class excludes `@`, so
backtracking it shorter can never reach an `@`); then `@`; then the greedy
`[A-Z0-9.-]+` backtracks to the rightmost `.` whose trailing `[A-Z]{2,}\b`
succeeds (`emailTld`), tried right-to-left exactly as the engine shortens
the greedy domain run. -/
def reEmail (prev : Option Char) (l : List Char) : Option Nat :=
  if boundary prev l.head? = false then none else
  let loc := l.takeWhile isLocalChar
  if loc.isEmpty then none else
  match l.dropWhile isLocalChar with
  | '@' :: rest2 =>
    let dom := rest2.takeWhile isDomChar
    let after := rest2.drop dom.length
    match ((List.range dom.length).reverse).findSome?
        (fun d => if 1 ≤ d ∧ dom.getD d ' ' = '.' then emailTld dom after d else none) with
    | some consumed => some (loc.length + 1 + consumed)
    | none => none
  | _ => none

/-- `[\d \-()]` — the phone middle class. -/
def isPhoneChar (c : Char) : Bool :=
  c.isDigit || c = ' ' || c = '-' || c = '(' || c = ')'

/-- `(?<!\d)(\+?\d[\d \-()]{7,}\d)(?!\d)` at the current position.  After the
optional `+` and the first digit at offset `j`, let `run` be the maximal
`[\d \-()]` run.  The final `\d(?!\d)` forces the match to end at the *last*
digit of `run` (its successor is never a digit: either a later non-digit
member of `run` or the first character outside the run, which is not in the
class and hence not a digit), and the greedy `{7,}` accepts exactly when
that digit leaves a middle of length ≥ 7, i.e. when the last digit sits at
offset ≥ 8 after the first digit. -/
def rePhone (prev : Option Char) (l : List Char) : Option Nat :=
  if (prev.getD ' ').isDigit then none else
  let plus : Nat := if l.head? = some '+' then 1 else 0
  match l.drop plus with
  | c :: rest =>
    if c.isDigit = false then none else
    let run := rest.takeWhile isPhoneChar
    let dlen := run.length - (run.reverse.takeWhile (fun x => x.isDigit = false)).length
    if 8 ≤ dlen then some (plus + 1 + dlen) else none
  | [] => none

/-- `\b(?:\d[ -]?){13,19}\b` — the repeated group, explored in the engine's
greedy depth-first order: prefer another iteration (up to 19 = initial
`budget`), inside an iteration prefer consuming the optional separator; when
iteration fails, stop and accept if at least 13 groups (`done`) were
consumed and a word boundary separates the last consumed character from the
next one.  Returns the number of characters consumed from `l`. -/
def cardTail : Nat → Nat → Option Char → List Char → Option Nat
  | 0, done, prevc, l =>
    if 13 ≤ done ∧ boundary prevc l.head? then some 0 else none
  | budget + 1, done, prevc, l =>
    (match l with
     | c :: rest =>
       if c.isDigit then
         (match rest with
          | d :: rest2 =>
            if d = ' ' || d = '-' then (cardTail budget (done + 1) (some d) rest2).map (· + 2)
            else none
          | [] => none)
         <|> (cardTail budget (done + 1) (some c) rest).map (· + 1)
       else none
     | [] => none)
    <|> (if 13 ≤ done ∧ boundary prevc l.head? then some 0 else none)

/-- `\b(?:\d[ -]?){13,19}\b` at the current position. -/
def reCard (prev : Option Char) (l : List Char) : Option Nat :=
  if boundary prev l.head? = false then none else
  cardTail 19 0 prev l

/-- `\b[A-Z]{2}\d{2}[A-Z0-9]{10,30}\b` at the current position (this pattern
is case-sensitive: no `(?i)`).  The greedy `[A-Z0-9]{10,30}` backtracks, but
any proper prefix of the maximal class run ends right before a class
character — a word character — killing the trailing `\b`; so the match
exists iff the maximal run has length between 10 and 30 and is followed by a
non-word character. -/
def reIban (prev : Option Char) (l : List Char) : Option Nat :=
  if boundary prev l.head? = false then none else
  match l with
  | a :: b :: c :: d :: rest =>
    if a.isUpper ∧ b.isUpper ∧ c.isDigit ∧ d.isDigit then
      let run := rest.takeWhile (fun x => x.isUpper || x.isDigit)
      if 10 ≤ run.length ∧ run.length ≤ 30 ∧ wordAt (rest.drop run.length).head? = false then
        some (4 + run.length)
      else none
    else none
  | _ => none

/-- Case folding for the label alternatives of the passport pattern
(ASCII letters and the Cyrillic block, which is all `(?i)` needs here). -/
def lowerC (c : Char) : Char :=
  if 'A' ≤ c ∧ c ≤ 'Z' then Char.ofNat (c.toNat + 32)
  else if 0x410 ≤ c.toNat ∧ c.toNat ≤ 0x42F then Char.ofNat (c.toNat + 32)
  else if c.toNat = 0x401 then Char.ofNat 0x451
  else c

/-- Case-insensitive literal prefix match; returns the rest on success. -/
def ciPrefix : List Char → List Char → Option (List Char)
  | [], rest => some rest
  | _ :: _, [] => none
  | p :: ps, c :: cs => if lowerC c = lowerC p then ciPrefix ps cs else none

/-- `[#: ]` — the separator class of the passport pattern. -/
def isPassSep (c : Char) : Bool := c = '#' || c = ':' || c = ' '

/-- `(?i)\b(passport|паспорт)[#: ]*\w+\b` at the current position.  The
alternation tries `passport` first, then `паспорт`.  After the label, the
greedy `[#: ]*` takes the maximal separator run; backtracking it shorter
cannot satisfy the following `\w+` (separators are not word characters), so
the match exists iff a word character directly follows the maximal
separator run; `\w+` is then the maximal word run, whose end is always a
valid `\b`. -/
def rePass (prev : Option Char) (l : List Char) : Option Nat :=
  if boundary prev l.head? = false then none else
  ["passport".data, "паспорт".data].findSome? (fun lab =>
    match ciPrefix lab l with
    | some rest =>
      let seps := rest.takeWhile isPassSep
      let rest2 := rest.drop seps.length
      let w := rest2.takeWhile isWordChar
      if w.isEmpty then none else some (lab.length + seps.length + w.length)
    | none => none)

/-- `pat.sub(rep, ·)`: scan the text left to right; at each position, if the
matcher matches `n ≥ 1` characters, emit `rep` and resume after them,
remembering the last original character for the next look-behind/`\b`;
otherwise copy one character.  `fuel` only bounds the recursion and is
always supplied as `length + 1`, which is enough since every step consumes
at least one character. -/
def subGo (matchAt : Option Char → List Char → Option Nat) (rep : List Char) :
    Nat → Option Char → List Char → List Char
  | 0, _, l => l
  | _ + 1, _, [] => []
  | fuel + 1, prev, c :: rest =>
    match matchAt prev (c :: rest) with
    | some n =>
      rep ++ subGo matchAt rep fuel (((c :: rest).take n).getLast?) (rest.drop (n - 1))
    | none => c :: subGo matchAt rep fuel (some c) rest

/-- `pat.sub(rep, text)` on character lists. -/
def subst (matchAt : Option Char → List Char → Option Nat) (rep : String)
    (l : List Char) : List Char :=
  subGo matchAt rep.data (l.length + 1) none l

/-- The five substitutions of `PII_PATTERNS`, applied in their list order. -/
def redactChars (l : List Char) : List Char :=
  subst rePass "<PASS>"
    (subst reIban "<IBAN?>"
      (subst reCard "<CARD>"
        (subst rePhone "<PHONE>"
          (subst reEmail "<EMAIL>" l))))

/-- `redact_pii(text)`. -/
def redact_pii (s : String) : String := ⟨redactChars s.data⟩

/-- The number of `<` characters in a text.  No pattern's character classes
or literals contain `<`, while every replacement token inserts exactly one,
so this count strictly increases under any actual replacement — the measure
behind the only-if direction of the idempotence characterization. -/
def cnt (l : List Char) : Nat := l.count '<'

/-- A matcher is *lt-clean* when every match it reports is non-empty and
spans no `<` character (true of all five patterns: none of their character
classes or literal parts contains `<`). -/
def LtClean (m : Option Char → List Char → Option Nat) : Prop :=
  ∀ prev l n, m prev l = some n → 1 ≤ n ∧ ∀ x ∈ l.take n, x ≠ '<'

/-! ## JSONL records (`iskra_projects_monolith.py` and `memory_manager.py`)

Records are Python dicts decoded from JSON lines.  They are modelled as
insertion-ordered association lists over a JSON-like value type (floats as
exact rationals — every literal the code compares against is a short
decimal). -/

/-- A JSON value as the monolith manipulates them.  Python lists are encoded
structurally as `vNil`/`vCons` chains (this keeps the type non-nested so
that equality stays decidable by derivation). -/
inductive Val where
  | vNull : Val
  | vBool : Bool → Val
  | vInt : Int → Val
  | vRat : Rat → Val
  | vStr : String → Val
  | vNil : Val
  | vCons : Val → Val → Val
deriving DecidableEq

/-- A Python list literal as a `Val`. -/
def vListOf (l : List Val) : Val := l.foldr Val.vCons Val.vNil

/-- A Python list of strings as a `Val`. -/
def vStrs (l : List String) : Val := vListOf (l.map Val.vStr)

/-- `isinstance(v, list)`. -/
def isList : Val → Bool
  | Val.vNil => true
  | Val.vCons _ _ => true
  | _ => false

/-- The elements of an encoded list (meaningful when `isList`). -/
def vElems : Val → List Val
  | Val.vCons h t => h :: vElems t
  | _ => []

/-- A record: a Python dict in insertion order (keys unique). -/
abbrev Rec := List (String × Val)

/-- `d[k]` / `k in d`: first binding. -/
def rGet? (r : Rec) (k : String) : Option Val :=
  match r.find? (fun p => p.1 == k) with
  | some p => some p.2
  | none => none

/-- `k in d`. -/
def rHasKey (r : Rec) (k : String) : Bool := (rGet? r k).isSome

/-- `d.get(k, v)`. -/
def rGetD (r : Rec) (k : String) (v : Val) : Val := (rGet? r k).getD v

/-- `d[k] = v`: replace in place if the key exists (Python dicts keep the
original position), else append. -/
def rSet (r : Rec) (k : String) (v : Val) : Rec :=
  if rHasKey r k then r.map (fun p => if p.1 == k then (p.1, v) else p)
  else r ++ [(k, v)]

/-- `d.setdefault(k, v)`. -/
def rSetD (r : Rec) (k : String) (v : Val) : Rec :=
  if rHasKey r k then r else r ++ [(k, v)]

/-! ### ISO timestamps and `add_days`

```python
ISO = re.compile(r"^\d{4}-\d{2}-\d{2}T\d{2}:\d{2}:\d{2}Z$")
def ensure_iso(s):
    if not ISO.match(s): raise ValueError(f"Bad ISO: {s}")
def add_days(s, d):
    ensure_iso(s); dt = datetime.datetime.strptime(s, "%Y-%m-%dT%H:%M:%SZ")
    return (dt + datetime.timedelta(days=d)).replace(microsecond=0).isoformat() + "Z"
```

Timestamps stay strings; the proleptic-Gregorian ordinal arithmetic of
`datetime.date` is implemented exactly (leap rules, month lengths,
`strptime` range validation, the year-9999 overflow bound). -/

/-- The `ISO` regex: 20 characters in the exact `\d{4}-\d{2}-\d{2}T\d{2}:\d{2}:\d{2}Z` shape. -/
def isoMatch (s : String) : Bool :=
  match s.data with
  | [y1, y2, y3, y4, '-', m1, m2, '-', d1, d2, 'T',
     h1, h2, ':', n1, n2, ':', s1, s2, 'Z'] =>
    [y1, y2, y3, y4, m1, m2, d1, d2, h1, h2, n1, n2, s1, s2].all Char.isDigit
  | _ => false

/-- `ensure_iso` (raises `ValueError`). -/
def ensure_iso (s : String) : Except String Unit :=
  if isoMatch s then .ok () else .error ("Bad ISO: " ++ s)

/-- Gregorian leap year. -/
def isLeap (y : Nat) : Bool := (y % 4 == 0 && y % 100 != 0) || y % 400 == 0

/-- Length of month `m` (1-based) of year `y`. -/
def monthLen (y m : Nat) : Nat :=
  [31, if isLeap y then 29 else 28, 31, 30, 31, 30, 31, 31, 30, 31, 30, 31].getD (m - 1) 0

/-- Days in the years `1 .. y-1` (proleptic Gregorian). -/
def daysBeforeYear (y : Nat) : Nat :=
  let n := y - 1
  365 * n + n / 4 - n / 100 + n / 400

/-- Days in the months `1 .. m-1` of year `y`. -/
def daysBeforeMonth (y m : Nat) : Nat :=
  ((List.range (m - 1)).map (fun i => monthLen y (i + 1))).sum

/-- `datetime.date(y, m, d).toordinal()` (0001-01-01 ↦ 1). -/
def toOrdinal (y m d : Nat) : Nat := daysBeforeYear y + daysBeforeMonth y m + d

/-- Finds the month containing day-of-year `doy` (0-based), returning
`(month, day)`; `m` is the 1-based month being tried. -/
def monthOfDoy (y : Nat) : Nat → Nat → Nat × Nat
  | doy, 0 => (12, doy + 1)
  | doy, fuel + 1 =>
    let m := 13 - (fuel + 1)
    if doy < monthLen y m then (m, doy + 1) else monthOfDoy y (doy - monthLen y m) fuel

/-- Inverse of `toOrdinal`: year search by 400/100/4/1-year cycles (as in
CPython's `_ord2ymd`), then a month scan. -/
def fromOrdinal (o : Nat) : Nat × Nat × Nat :=
  let n := o - 1
  let n400 := n / 146097
  let r400 := n % 146097
  let n100 := r400 / 36524
  let r100 := r400 % 36524
  let n4 := r100 / 1461
  let r4 := r100 % 1461
  let n1 := r4 / 365
  let y0 := n400 * 400 + n100 * 100 + n4 * 4 + n1
  if n1 = 4 ∨ n100 = 4 then (y0, 12, 31)
  else
    let y := y0 + 1
    let doy := r4 % 365
    let md := monthOfDoy y doy 12
    (y, md.1, md.2)

/-- Two-digit zero-padded decimal. -/
def pad2 (n : Nat) : String := if n < 10 then "0" ++ toString n else toString n

/-- Four-digit zero-padded decimal. -/
def pad4 (n : Nat) : String :=
  if n < 10 then "000" ++ toString n
  else if n < 100 then "00" ++ toString n
  else if n < 1000 then "0" ++ toString n
  else toString n

/-- Parses the 14 digit characters of an ISO-shaped string into
`(y, mo, d, h, mi, s)` (the string is known to match the regex). -/
def isoFields (s : String) : Nat × Nat × Nat × Nat × Nat × Nat :=
  let dg (i : Nat) : Nat := ((s.data.getD i '0').toNat - '0'.toNat)
  (dg 0 * 1000 + dg 1 * 100 + dg 2 * 10 + dg 3,
   dg 5 * 10 + dg 6, dg 8 * 10 + dg 9, dg 11 * 10 + dg 12,
   dg 14 * 10 + dg 15, dg 17 * 10 + dg 18)

/-- `add_days(s, d)`: `ensure_iso`, `strptime` (which additionally validates
calendar ranges: year ≥ 1, month 1–12, day within the month, time fields in
range), `timedelta(days=d)` on the proleptic ordinal (time of day is
unchanged), format back; `datetime` raises `OverflowError` past year
9999. -/
def add_days (s : String) (d : Nat) : Except String String := do
  let _ ← ensure_iso s
  let f := isoFields s
  let (y, mo, dy, h, mi, sec) := f
  if ¬ (1 ≤ y ∧ 1 ≤ mo ∧ mo ≤ 12 ∧ 1 ≤ dy ∧ dy ≤ monthLen y mo ∧
        h ≤ 23 ∧ mi ≤ 59 ∧ sec ≤ 59) then
    .error ("time data " ++ s ++ " does not match format")
  else
    let o := toOrdinal y mo dy + d
    let (y', mo', dy') := fromOrdinal o
    if 9999 < y' then .error "OverflowError: date value out of range"
    else .ok (pad4 y' ++ "-" ++ pad2 mo' ++ "-" ++ pad2 dy' ++ "T" ++
              pad2 h ++ ":" ++ pad2 mi ++ ":" ++ pad2 sec ++ "Z")

/-- ```python
def days_from_conf(c):
    return 1 if c<=0.3 else 7 if c<=0.6 else 30 if c<=0.85 else 90
``` -/
def days_from_conf (c : Rat) : Nat :=
  if c ≤ mkRat 3 10 then 1
  else if c ≤ mkRat 6 10 then 7
  else if c ≤ mkRat 85 100 then 30
  else 90

/-! ### The monolith `Memory` class

State = the two JSONL logs (`ARCHIVE/main_archive.jsonl`,
`SHADOW/main_shadow.jsonl`), each a list of records in file order.  File
I/O (`Jsonl.read`/`append`/`write_all`) becomes explicit state passing: an
operation takes the state and returns the new state; exceptions become
`Except.error`. -/

/-- The monolith's memory state. -/
structure Memory where
  arc : List Rec
  sh : List Rec
deriving DecidableEq

/-- Python `float(str)` on the plain decimal forms (`[+-]?digits[.digits]`,
with optional surrounding whitespace); scientific notation and the other
exotic accepted spellings do not occur in this code base. -/
def pyFloatOfString (s : String) : Option Rat :=
  let t := s.trim.data
  let pu : Bool × List Char := match t with
    | '-' :: r => (true, r)
    | '+' :: r => (false, r)
    | r => (false, r)
  let ip := pu.2.takeWhile (fun c => c ≠ '.')
  let rest := pu.2.drop ip.length
  let digs (l : List Char) : Bool := l.all Char.isDigit
  let natOf (l : List Char) : Nat := l.foldl (fun a c => a * 10 + (c.toNat - '0'.toNat)) 0
  match rest with
  | [] =>
    if ip ≠ [] ∧ digs ip then some (if pu.1 then -(natOf ip : Rat) else (natOf ip : Rat))
    else none
  | '.' :: fp =>
    if (ip ≠ [] ∨ fp ≠ []) ∧ digs ip ∧ digs fp then
      let q : Rat := (natOf ip : Rat) + mkRat (natOf fp) (10 ^ fp.length)
      some (if pu.1 then -q else q)
    else none
  | _ => none

/-- Python `float(v)` (`bool` is an `int` in Python, hence coercible). -/
def pyFloat : Val → Except String Rat
  | Val.vRat q => .ok q
  | Val.vInt i => .ok (i : Rat)
  | Val.vBool b => .ok (if b then 1 else 0)
  | Val.vStr s =>
    match pyFloatOfString s with
    | some q => .ok q
    | none => .error ("could not convert string to float: " ++ s)
  | Val.vNull => .error "float() argument must be a string or a real number, not NoneType"
  | Val.vNil => .error "float() argument must be a string or a real number, not list"
  | Val.vCons _ _ => .error "float() argument must be a string or a real number, not list"

/-- `isinstance(v, int)` (Python `bool` is a subclass of `int`). -/
def isPyInt : Val → Bool
  | Val.vInt _ => true
  | Val.vBool _ => true
  | _ => false

/-- `isinstance(v, str)`. -/
def isPyStr : Val → Bool
  | Val.vStr _ => true
  | _ => false

/-- `ISO.match` applied to a record field: a non-string raises `TypeError`. -/
def ensureIsoVal : Option Val → Except String Unit
  | some (Val.vStr s) => ensure_iso s
  | _ => .error "expected string or bytes-like object"

/-- `isinstance(t, str)` for every element of an encoded list. -/
def allStr (v : Val) : Bool := (vElems v).all isPyStr

/-- `Memory._v_arc`, check for check in source order. -/
def _v_arc (x : Rec) : Except String Unit := do
  match ["id", "date", "title", "thought", "tags", "confidence",
         "next_review"].find? (fun k => ¬ rHasKey x k) with
  | some k => .error ("archive missing " ++ k)
  | none =>
    if ¬ isPyInt (rGetD x "id" Val.vNull) then .error "archive.id int"
    else do
      let _ ← ensureIsoVal (rGet? x "date")
      let _ ← ensureIsoVal (rGet? x "next_review")
      if ¬ (isPyStr (rGetD x "title" Val.vNull) ∧ isPyStr (rGetD x "thought" Val.vNull)) then
        .error "title/thought str"
      else if ¬ (isList (rGetD x "tags" Val.vNull) ∧ allStr (rGetD x "tags" Val.vNull)) then
        .error "tags[] str"
      else do
        let cf ← pyFloat (rGetD x "confidence" Val.vNull)
        if ¬ (0 ≤ cf ∧ cf ≤ 1) then .error "confidence [0..1]" else .ok ()

/-- `Memory._v_sh`, check for check in source order. -/
def _v_sh (x : Rec) : Except String Unit := do
  match ["id", "date", "signal", "hypothesis", "tags", "confidence",
         "review_after"].find? (fun k => ¬ rHasKey x k) with
  | some k => .error ("shadow missing " ++ k)
  | none =>
    if ¬ isPyInt (rGetD x "id" Val.vNull) then .error "shadow.id int"
    else do
      let _ ← ensureIsoVal (rGet? x "date")
      let _ ← ensureIsoVal (rGet? x "review_after")
      if ¬ (isPyStr (rGetD x "signal" Val.vNull) ∧ isPyStr (rGetD x "hypothesis" Val.vNull)) then
        .error "signal/hypothesis str"
      else if rHasKey x "counter" ∧ rGetD x "counter" Val.vNull ≠ Val.vNull ∧
              ¬ isPyStr (rGetD x "counter" Val.vNull) then
        .error "counter str|None"
      else if ¬ (isList (rGetD x "tags" Val.vNull) ∧ allStr (rGetD x "tags" Val.vNull)) then
        .error "tags[] str"
      else do
        let cf ← pyFloat (rGetD x "confidence" Val.vNull)
        if ¬ (0 ≤ cf ∧ cf ≤ 1) then .error "confidence [0..1]" else .ok ()

/-- `it.get("id", 0)` as a Python number, for `max` (a Python `bool` is an
`int`; any other type makes `max` raise `TypeError`). -/
def idsOf : List Rec → Except String (List Int)
  | [] => .ok []
  | it :: rest =>
    match rGetD it "id" (Val.vInt 0) with
    | Val.vInt i => do
      let t ← idsOf rest
      .ok (i :: t)
    | Val.vBool b => do
      let t ← idsOf rest
      .ok ((if b then (1 : Int) else 0) :: t)
    | _ => .error "TypeError: unorderable id values in max()"

/-- `Memory._next_id`: `max(it.get("id", 0) for it) + 1`, or 1 when empty. -/
def _next_id (items : List Rec) : Except String Int :=
  if items.isEmpty then .ok 1
  else do
    let nums ← idsOf items
    match nums with
    | [] => .ok 1
    | h :: t => .ok (t.foldl max h + 1)

/-- Lexicographic (codepoint) insertion keeping sortedness — Python
`sorted` on strings. -/
def insertStr (x : String) : List String → List String
  | [] => [x]
  | y :: ys => if x ≤ y then x :: y :: ys else y :: insertStr x ys

/-- Python `sorted` for lists of strings. -/
def sortStrings (l : List String) : List String := l.foldr insertStr []

/-- `sorted(set(t.strip() for t in tags if t.strip()))`. -/
def normTags (tags : List String) : List String :=
  sortStrings (((tags.map (fun t => t.trim)).filter (fun t => t ≠ "")).dedup)

/-- `Memory.add_archive(title, thought, tags, confidence, evidence)`.
`iso_now()` is passed in as `now`.  The record dict is built (consuming
`_next_id`), then the line

```python
obj["next_review"] = add_days(obj["date"], days_from_confidence(obj["confidence"]))
```

evaluates the name `days_from_confidence` — which is bound nowhere in the
module (the helper defined at line 32 is `days_from_conf`) — and raises
`NameError` before validation or the append, so the method never writes and
never returns a record. -/
def add_archive (mm : Memory) (title thought : String) (tags : List String)
    (confidence : Rat) (_evidence : Option (List String)) (now : String) :
    Except String (Rec × Memory) := do
  let items := mm.arc
  let nid ← _next_id items
  let _obj : Rec :=
    [("id", Val.vInt nid), ("date", Val.vStr now),
     ("title", Val.vStr (redact_pii title.trim)),
     ("thought", Val.vStr (redact_pii thought.trim)),
     ("tags", vStrs (normTags tags)),
     ("confidence", Val.vRat confidence), ("next_review", Val.vNull)]
  .error "NameError: name days_from_confidence is not defined"

/-- The dedupe hash key for Архив records:
`x.get("title","") + "|" + x.get("thought","")` (a non-string field makes
the `+` raise `TypeError`).  `jhash` truncates SHA-256 to 16 hex
characters; it is modelled by the key string itself, an injective stand-in
for the hash. -/
def jkeyArc (x : Rec) : Except String String :=
  match rGetD x "title" (Val.vStr ""), rGetD x "thought" (Val.vStr "") with
  | Val.vStr a, Val.vStr b => .ok (a ++ "|" ++ b)
  | _, _ => .error "TypeError: can only concatenate str to str"

/-- The dedupe hash key for Shadow records:
`x.get("signal","") + "|" + x.get("hypothesis","")`. -/
def jkeySh (x : Rec) : Except String String :=
  match rGetD x "signal" (Val.vStr ""), rGetD x "hypothesis" (Val.vStr "") with
  | Val.vStr a, Val.vStr b => .ok (a ++ "|" ++ b)
  | _, _ => .error "TypeError: can only concatenate str to str"

/-- The inner `uniq` of `Memory.dedupe`: keep a record iff its key was not
seen before, in log order. -/
def uniq (key : Rec → Except String String) (seen : List String) :
    List Rec → Except String (List Rec)
  | [] => .ok []
  | x :: xs => do
    let h ← key x
    if h ∈ seen then uniq key seen xs
    else do
      let out ← uniq key (h :: seen) xs
      .ok (x :: out)

/-- `Memory.dedupe()`: deduplicate both logs, atomically rewrite, return
`(state, archive_removed, shadow_removed)`. -/
def dedupe (mm : Memory) : Except String (Memory × Nat × Nat) := do
  let arcU ← uniq jkeyArc [] mm.arc
  let shU ← uniq jkeySh [] mm.sh
  .ok (⟨arcU, shU⟩, mm.arc.length - arcU.length, mm.sh.length - shU.length)

/-- One entry of the `problems` list of `Memory.validate`. -/
structure Problem where
  kind : String
  id : Option Val
  err : String
  item : Rec
deriving DecidableEq

/-- The report dict returned by `Memory.validate`. -/
structure Report where
  checked : Nat
  ok : Bool
  problems : List Problem
deriving DecidableEq

/-- The per-kind loop of `Memory.validate`: try the validator, then the
duplicate-id check (`seen` holds the ids of previously accepted records of
this kind); any raise is caught and recorded, in scan order, with the
record's kind and `it.get("id")`.  Returns `(checked, problems)` for this
kind. -/
def validateGo (kind : String) (vf : Rec → Except String Unit) :
    List Rec → List Val → Nat × List Problem
  | [], _ => (0, [])
  | it :: rest, seen =>
    match vf it with
    | .error e =>
      let t := validateGo kind vf rest seen
      (t.1, ⟨kind, rGet? it "id", e, it⟩ :: t.2)
    | .ok () =>
      let idv := rGetD it "id" Val.vNull
      if idv ∈ seen then
        let t := validateGo kind vf rest seen
        (t.1, ⟨kind, rGet? it "id", "duplicate id", it⟩ :: t.2)
      else
        let t := validateGo kind vf rest (idv :: seen)
        (t.1 + 1, t.2)

/-- `Memory.validate()`: archive then shadow, `seen` reset per kind,
`checked`/`problems` accumulated across kinds;
returns `{"checked": ..., "ok": not problems, "problems": ...}`. -/
def validate (mm : Memory) : Report :=
  let a := validateGo "archive" _v_arc mm.arc []
  let s := validateGo "shadow" _v_sh mm.sh []
  ⟨a.1 + s.1, (a.2 ++ s.2).isEmpty, a.2 ++ s.2⟩

/-- `validate` as a state operation: the method only calls `self.arc.read()`
and `self.sh.read()` — no `append`/`write_all` — so the state component is
returned unchanged. -/
def validateOp (mm : Memory) : Memory × Report := (mm, validate mm)

/-- The `next_review` fix path of `Memory.upgrade`:
`add_days(it["date"], days_from_confidence(float(it.get("confidence", 0.5))))`.
`it["date"]` is evaluated first (`KeyError` when absent), then the callee
name `days_from_confidence` is looked up — undefined, hence `NameError` —
before `float` or `add_days` ever run. -/
def upgradeArcFix (it : Rec) : Except String (Rec × Nat) :=
  match rGet? it "date" with
  | none => .error "KeyError: date"
  | some _ => .error "NameError: name days_from_confidence is not defined"

/-- The archive loop of `Memory.upgrade`: a record is touched iff
`next_review` is absent or fails `ISO.match` (a non-string field makes
`ISO.match` raise `TypeError`). -/
def upgradeArc : List Rec → Except String (List Rec × Nat)
  | [] => .ok ([], 0)
  | it :: rest => do
    let step ←
      match rGet? it "next_review" with
      | some (Val.vStr s) => if isoMatch s then .ok (it, 0) else upgradeArcFix it
      | some _ => .error "TypeError: expected string or bytes-like object"
      | none => upgradeArcFix it
    let tail ← upgradeArc rest
    .ok (step.1 :: tail.1, step.2 + tail.2)

/-- The `review_after` fix path of `Memory.upgrade`:
`it["review_after"] = add_days(it["date"], 7)` — a flat 7 days, whatever the
record's confidence. -/
def upgradeShFix (it : Rec) : Except String (Rec × Nat) :=
  match rGet? it "date" with
  | none => .error "KeyError: date"
  | some (Val.vStr ds) => do
    let nr ← add_days ds 7
    .ok (rSet it "review_after" (Val.vStr nr), 1)
  | some _ => .error "expected string or bytes-like object"

/-- The shadow loop of `Memory.upgrade` (the trailing
`if "counter" in it and it["counter"] is None: pass` is a no-op and is
omitted). -/
def upgradeSh : List Rec → Except String (List Rec × Nat)
  | [] => .ok ([], 0)
  | it :: rest => do
    let step ←
      match rGet? it "review_after" with
      | some (Val.vStr s) => if isoMatch s then .ok (it, 0) else upgradeShFix it
      | some _ => .error "TypeError: expected string or bytes-like object"
      | none => upgradeShFix it
    let tail ← upgradeSh rest
    .ok (step.1 :: tail.1, step.2 + tail.2)

/-- `Memory.upgrade()`: fix both logs, rewrite, return `{"changed": n}`.  An
exception mid-loop aborts before `write_all`, so the state is untouched on
error. -/
def upgrade (mm : Memory) : Except String (Memory × Nat) := do
  let a ← upgradeArc mm.arc
  let s ← upgradeSh mm.sh
  .ok (⟨a.1, s.1⟩, a.2 + s.2)

/-! ### `MemoryManager` (`memory_manager.py`) and `stitch`

The second memory implementation.  Its nondeterministic inputs — the
time/uuid-based `_generate_id` results and `_default_next_review()` — are
passed in as parameters (`genIdA`, `genIdS`, `defReview`); everything else
is a pure function of the two logs. -/

/-- The `MemoryManager` state: the two JSONL files. -/
structure MMState where
  archive : List Rec
  shadow : List Rec
deriving DecidableEq

/-- The summary dict returned by `MemoryManager.stitch`. -/
structure Summary where
  rule : String
  window : Nat
  analysed : Nat
  insights : List Val
  insight_entry : Option Rec
  shadow_entry : Option Rec
deriving DecidableEq

/-- `MemoryManager._validate_archive_entry` (with the generated id and the
default review date supplied): requires non-empty string
`title`/`type`/`content`/`confidence`, then fills defaults in source
order. -/
def mmValidateArchiveEntry (genId defReview : String) (entry : Rec) : Except String Rec :=
  match ["title", "type", "content", "confidence"].find? (fun f =>
      match rGet? entry f with
      | some (Val.vStr s) => s == ""
      | _ => true) with
  | some f => .error ("Archive entry requires non-empty '" ++ f ++ "'")
  | none =>
    let d := entry
    let d := rSetD d "evidence" Val.vNil
    let d := rSetD d "owner" (Val.vStr "user")
    let d := rSetD d "tags" Val.vNil
    let d := if rHasKey d "id" then d else rSet d "id" (Val.vStr genId)
    let d := rSetD d "next_review" (Val.vStr defReview)
    .ok d

/-- `MemoryManager._validate_shadow_entry`. -/
def mmValidateShadowEntry (genId defReview : String) (entry : Rec) : Except String Rec :=
  match ["signal", "pattern", "hypothesis", "counter", "confidence"].find? (fun f =>
      match rGet? entry f with
      | some (Val.vStr s) => s == ""
      | _ => true) with
  | some f => .error ("Shadow entry requires non-empty '" ++ f ++ "'")
  | none =>
    let d := entry
    let d := if rHasKey d "id" then d else rSet d "id" (Val.vStr genId)
    let d := rSetD d "review_after" (Val.vStr defReview)
    .ok d

/-- Iterating `rec.get('tags', [])` and keeping `isinstance(tag, str)`
elements: a list yields its string members, a string yields its characters
(each a `str`), anything else is not iterable and raises `TypeError`. -/
def tagStrs : Val → Except String (List String)
  | Val.vNil => .ok []
  | Val.vCons h t => do
    let rest ← tagStrs t
    .ok ((match h with | Val.vStr s => [s] | _ => []) ++ rest)
  | Val.vStr s => .ok (s.data.map (fun c => String.mk [c]))
  | _ => .error "TypeError: object is not iterable"

/-- The tag collection pass of `stitch`
(`{tag for rec in recent_records for tag in rec.get('tags', []) if isinstance(tag, str)}`
before dedup/sort): records in order, first bad record raises. -/
def tagsOfRecs : List Rec → Except String (List (List String))
  | [] => .ok []
  | r :: rest => do
    let h ← tagStrs (rGetD r "tags" Val.vNil)
    let t ← tagsOfRecs rest
    .ok (h :: t)

/-- `MemoryManager.stitch(rule88)`: analyse the last 8 (88) archive records;
on a non-empty window append one insight record through
`append_archive`, and additionally one shadow record through `append_shadow`
when `questions and len(questions) >= len(decisions)`. -/
def stitch (st : MMState) (rule88 : Bool) (genIdA genIdS defReview : String) :
    Except String (MMState × Summary) := do
  let window := if rule88 then 88 else 8
  let records := st.archive
  let recent := records.drop (records.length - window)
  let rule := if rule88 then "rule88" else "rule8"
  if recent.isEmpty then
    .ok (st, ⟨rule, window, recent.length, [], none, none⟩)
  else do
    let decisions := recent.filter (fun r => rGet? r "type" == some (Val.vStr "решение"))
    let questions := recent.filter (fun r => rGet? r "type" == some (Val.vStr "вопрос"))
    let tagLists ← tagsOfRecs recent
    let tags := sortStrings tagLists.flatten.dedup
    let base := "Проанализировано " ++ toString recent.length ++ " записей: решений — " ++
                toString decisions.length ++ ", вопросов — " ++ toString questions.length ++ "."
    let content := if tags.isEmpty then base
                   else base ++ " Активные теги: " ++ String.intercalate ", " (tags.take 5) ++ "."
    let insightEntry : Rec :=
      [("title", Val.vStr "Stitch summary"), ("type", Val.vStr "инсайт"),
       ("content", Val.vStr content), ("confidence", Val.vStr "сред"),
       ("owner", Val.vStr "system.stitch"),
       ("tags", vStrs ["§stitch", if rule88 then "§rule88" else "§rule8"])]
    let written ← mmValidateArchiveEntry genIdA defReview insightEntry
    let sumIns := [rGetD written "id" Val.vNull]
    if ¬ questions.isEmpty ∧ decisions.length ≤ questions.length then do
      let shadowEntry : Rec :=
        [("signal", Val.vStr "open_questions"),
         ("pattern", Val.vStr ("Количество открытых вопросов (" ++ toString questions.length ++
            ") не уступает количеству решений (" ++ toString decisions.length ++ ").")),
         ("hypothesis", Val.vStr "Требуется дополнительная проработка выявленных вопросов."),
         ("counter", Val.vStr "Проверить следующую серию записей и подтвердить тренд."),
         ("confidence", Val.vStr "сред")]
      let writtenSh ← mmValidateShadowEntry genIdS defReview shadowEntry
      .ok (⟨st.archive ++ [written], st.shadow ++ [writtenSh]⟩,
           ⟨rule, window, recent.length, sumIns, some written, some writtenSh⟩)
    else
      .ok (⟨st.archive ++ [written], st.shadow⟩,
           ⟨rule, window, recent.length, sumIns, some written, none⟩)

/-! ## Concrete records and auxiliary definitions used by the claim theorems -/

/-- Equality of `Except` results is decidable when both components' is. -/
instance {e a : Type} [DecidableEq e] [DecidableEq a] : DecidableEq (Except e a) := fun x y =>
  match x, y with
  | .ok u, .ok v =>
    if h : u = v then isTrue (by rw [h])
    else isFalse (fun he => h (by injection he))
  | .error u, .error v =>
    if h : u = v then isTrue (by rw [h])
    else isFalse (fun he => h (by injection he))
  | .ok _, .error _ => isFalse (fun he => by injection he)
  | .error _, .ok _ => isFalse (fun he => by injection he)

/-- An archive record lacking `next_review` (otherwise schema-valid,
confidence 0.5). -/
def arcRecNoNR : Rec :=
  [("id", Val.vInt 1), ("date", Val.vStr "2025-01-01T00:00:00Z"),
   ("title", Val.vStr "t"), ("thought", Val.vStr "x"),
   ("tags", Val.vNil), ("confidence", Val.vRat (mkRat 1 2))]

/-- A shadow record lacking `review_after`, with confidence 0.9 (≥ 0.7, the
tier for which the claim expects a 3-day default). -/
def shRecNoRA : Rec :=
  [("id", Val.vInt 1), ("date", Val.vStr "2025-01-01T00:00:00Z"),
   ("signal", Val.vStr "s"), ("hypothesis", Val.vStr "h"),
   ("tags", Val.vNil), ("confidence", Val.vRat (mkRat 9 10))]

/-- The claim-side characterization of `dedupe` ("keep the first occurrence
of each hash, drop the rest"): keep each record whose key has not appeared
earlier, in log order. -/
def specFirstOccur (k : Rec → String) : List Rec → List Rec
  | [] => []
  | x :: xs => x :: specFirstOccur k (xs.filter (fun y => k y != k x))
termination_by l => l.length
decreasing_by
  simp only [List.length_cons]
  exact Nat.lt_succ_of_le (List.length_filter_le _ _)

/-- The archive dedupe key, totalized (meaningful where `jkeyArc`
succeeds). -/
def keyArcD (x : Rec) : String :=
  match rGetD x "title" (Val.vStr ""), rGetD x "thought" (Val.vStr "") with
  | Val.vStr a, Val.vStr b => a ++ "|" ++ b
  | _, _ => ""

/-- The shadow dedupe key, totalized. -/
def keyShD (x : Rec) : String :=
  match rGetD x "signal" (Val.vStr ""), rGetD x "hypothesis" (Val.vStr "") with
  | Val.vStr a, Val.vStr b => a ++ "|" ++ b
  | _, _ => ""

/-- `uniq` with the exceptions discharged: pure seen-set filtering. -/
def uniqP (kt : Rec → String) (seen : List String) : List Rec → List Rec
  | [] => []
  | x :: xs =>
    if kt x ∈ seen then uniqP kt seen xs else x :: uniqP kt (kt x :: seen) xs

/-- A schema-valid archive record (id 1). -/
def goodArcRec : Rec :=
  [("id", Val.vInt 1), ("date", Val.vStr "2025-01-01T00:00:00Z"),
   ("title", Val.vStr "t"), ("thought", Val.vStr "x"), ("tags", Val.vNil),
   ("confidence", Val.vRat (mkRat 1 2)),
   ("next_review", Val.vStr "2025-01-08T00:00:00Z")]

/-- An archive record of a type that is neither `вопрос` (question) nor
`решение` (decision). -/
def insRecC5 : Rec :=
  [("title", Val.vStr "t"), ("type", Val.vStr "инсайт"),
   ("content", Val.vStr "c"), ("confidence", Val.vStr "сред"), ("tags", Val.vNil)]

/-- The analysed window of `stitch`: `records[-window:]`. -/
def stitchWindow (st : MMState) (rule88 : Bool) : List Rec :=
  st.archive.drop (st.archive.length - (if rule88 then 88 else 8))

/-- The question-type records of the window. -/
def stitchQs (st : MMState) (rule88 : Bool) : List Rec :=
  (stitchWindow st rule88).filter (fun r => rGet? r "type" == some (Val.vStr "вопрос"))

/-- The decision-type records of the window. -/
def stitchDs (st : MMState) (rule88 : Bool) : List Rec :=
  (stitchWindow st rule88).filter (fun r => rGet? r "type" == some (Val.vStr "решение"))

/-- A question-type archive record. -/
def qRecC5 : Rec :=
  [("title", Val.vStr "q"), ("type", Val.vStr "вопрос"),
   ("content", Val.vStr "c"), ("confidence", Val.vStr "сред"), ("tags", Val.vNil)]

/-! ## Claims about the phase manager and the facet engine -/

/-- C3: `PhaseManager.step` evaluates its guards in fixed priority order with
first match winning (`silence_mass > 0.6` → Молчание/Silence; else
`chaos > 0.6` → Переход/Transition; else `clarity > 0.7` → Ясность/Clarity;
missing metrics read as 0 through `mget`'s default) and leaves the state
unchanged when none match; and, from the initial state,
`step({"chaos": 0.7})` yields Переход, then `step({"clarity": 0.8})` yields
Ясность, then `step({"silence_mass": 0.7})` yields Молчание. -/
theorem step_guard_priority_and_scenario :
    (∀ (p : String) (m : Metrics),
        mget m "silence_mass" 0 > mkRat 6 10 → step p m = "Молчание") ∧
    (∀ (p : String) (m : Metrics),
        mget m "silence_mass" 0 ≤ mkRat 6 10 → mget m "chaos" 0 > mkRat 6 10 →
        step p m = "Переход") ∧
    (∀ (p : String) (m : Metrics),
        mget m "silence_mass" 0 ≤ mkRat 6 10 → mget m "chaos" 0 ≤ mkRat 6 10 →
        mget m "clarity" 0 > mkRat 7 10 → step p m = "Ясность") ∧
    (∀ (p : String) (m : Metrics),
        mget m "silence_mass" 0 ≤ mkRat 6 10 → mget m "chaos" 0 ≤ mkRat 6 10 →
        mget m "clarity" 0 ≤ mkRat 7 10 → step p m = p) ∧
    (step phaseInit [("chaos", mkRat 7 10)] = "Переход" ∧
     step (step phaseInit [("chaos", mkRat 7 10)]) [("clarity", mkRat 8 10)] = "Ясность" ∧
     step (step (step phaseInit [("chaos", mkRat 7 10)]) [("clarity", mkRat 8 10)])
       [("silence_mass", mkRat 7 10)] = "Молчание") := by
  refine ⟨?_, ?_, ?_, ?_, ?_, ?_, ?_⟩
  · intro p m h
    simp [step, h]
  · intro p m h1 h2
    simp [step, not_lt.mpr h1, h2]
  · intro p m h1 h2 h3
    simp [step, not_lt.mpr h1, not_lt.mpr h2, h3]
  · intro p m h1 h2 h3
    simp [step, not_lt.mpr h1, not_lt.mpr h2, not_lt.mpr h3]
  · decide
  · decide
  · decide

/-- Witness for C3: all four guard branches exercised at concrete inputs. -/
theorem step_guard_priority_and_scenario_witness :
    step "Тьма" [("silence_mass", mkRat 7 10)] = "Молчание" ∧
    step "Тьма" [("chaos", mkRat 65 100)] = "Переход" ∧
    step "Тьма" [("clarity", mkRat 75 100)] = "Ясность" ∧
    step "Тьма" [("echo", mkRat 9 10)] = "Тьма" :=
  ⟨step_guard_priority_and_scenario.1 "Тьма" [("silence_mass", mkRat 7 10)] (by decide),
   step_guard_priority_and_scenario.2.1 "Тьма" [("chaos", mkRat 65 100)] (by decide) (by decide),
   step_guard_priority_and_scenario.2.2.1 "Тьма" [("clarity", mkRat 75 100)]
     (by decide) (by decide) (by decide),
   step_guard_priority_and_scenario.2.2.2.1 "Тьма" [("echo", mkRat 9 10)]
     (by decide) (by decide) (by decide)⟩

/-- Membership in the sorted output is membership in the unsorted `active`
list (insertion sort is a permutation). -/
theorem mem_sortByKey (f : String) (l : List String) : f ∈ sortByKey l ↔ f ∈ l :=
  (List.perm_insertionSort keyLe l).mem_iff

/-- C4: `select_facets` activates exactly the facets with some listed metric
whose value (0.0 when absent) lies in the facet's half-open `[min, max)`
interval; facets with an empty condition dict (`Iskra`, `Maki`) never
activate; the result is sorted by the fixed priority table; and
`select_facets({"pain": 0.9})` returns `["Anhantra", "Kain", "Sam"]`, which
contains `"Kain"` with `"Anhantra"` preceding it. -/
theorem select_facets_activation_and_order :
    (∀ (e : FacetActivationEngine) (m : Metrics) (ctx : Context) (f : String),
        f ∈ (select_facets e m ctx).1 ↔
          ∃ cs, (f, cs) ∈ THRESHOLDS ∧ cs ≠ [] ∧
            ∃ c ∈ cs, c.2.1 ≤ mget m c.1 0 ∧ mget m c.1 0 < c.2.2) ∧
    (∀ (e : FacetActivationEngine) (m : Metrics) (ctx : Context),
        List.Pairwise keyLe (select_facets e m ctx).1) ∧
    (∀ (e : FacetActivationEngine) (m : Metrics) (ctx : Context),
        "Iskra" ∉ (select_facets e m ctx).1 ∧ "Maki" ∉ (select_facets e m ctx).1) ∧
    ((select_facets ⟨[]⟩ [("pain", mkRat 9 10)] {}).1 = ["Anhantra", "Kain", "Sam"]) := by
  have hmem : ∀ (e : FacetActivationEngine) (m : Metrics) (ctx : Context) (f : String),
      f ∈ (select_facets e m ctx).1 ↔
        ∃ cs, (f, cs) ∈ THRESHOLDS ∧ cs ≠ [] ∧
          ∃ c ∈ cs, c.2.1 ≤ mget m c.1 0 ∧ mget m c.1 0 < c.2.2 := by
    intro e m ctx f
    show f ∈ sortByKey (activeList m) ↔ _
    rw [mem_sortByKey]
    unfold activeList
    rw [List.mem_map]
    constructor
    · rintro ⟨⟨g, cs⟩, hmem, rfl⟩
      rw [List.mem_filter] at hmem
      refine ⟨cs, hmem.1, ?_, ?_⟩
      · have := hmem.2
        simp only [Bool.and_eq_true, Bool.not_eq_true'] at this
        intro hnil
        simp [hnil] at this
      · have := hmem.2
        simp only [Bool.and_eq_true, condHit, List.any_eq_true] at this
        obtain ⟨c, hc, hcond⟩ := this.2
        exact ⟨c, hc, of_decide_eq_true hcond⟩
    · rintro ⟨cs, hmem, hnil, c, hc, h1, h2⟩
      refine ⟨(f, cs), ?_, rfl⟩
      rw [List.mem_filter]
      refine ⟨hmem, ?_⟩
      simp only [Bool.and_eq_true, Bool.not_eq_true', condHit, List.any_eq_true]
      constructor
      · cases cs with
        | nil => exact absurd rfl hnil
        | cons a t => rfl
      · exact ⟨c, hc, decide_eq_true ⟨h1, h2⟩⟩
  refine ⟨hmem, ?_, ?_, ?_⟩
  · intro e m ctx
    have : List.Sorted keyLe (sortByKey (activeList m)) := by
      haveI : IsTotal String keyLe := ⟨fun a b => Nat.le_total (orderKey a) (orderKey b)⟩
      haveI : IsTrans String keyLe := ⟨fun _ _ _ h1 h2 => Nat.le_trans h1 h2⟩
      exact List.sorted_insertionSort keyLe (activeList m)
    exact this
  · intro e m ctx
    constructor
    · intro h
      rw [hmem] at h
      obtain ⟨cs, htab, hnil, _⟩ := h
      simp [THRESHOLDS] at htab
      exact hnil htab
    · intro h
      rw [hmem] at h
      obtain ⟨cs, htab, hnil, _⟩ := h
      simp [THRESHOLDS] at htab
      exact hnil htab
  · decide

/-- Witness for C4: the activation criterion applied at a concrete input
(`Kain` is active on `{"pain": 0.9}` because `0.7 ≤ 0.9 < 1.01`). -/
theorem select_facets_activation_and_order_witness :
    "Kain" ∈ (select_facets ⟨[]⟩ [("pain", mkRat 9 10)] {}).1 :=
  (select_facets_activation_and_order.1 ⟨[]⟩ [("pain", mkRat 9 10)] {} "Kain").mpr
    ⟨[("pain", (mkRat 7 10, mkRat 101 100))], by decide, by decide,
     ("pain", (mkRat 7 10, mkRat 101 100)), by decide, by decide, by decide⟩

/-- C10: the list returned by `select_facets` depends only on the metrics
snapshot — neither the `ctx` argument nor the engine's stored `last_active`
state (i.e. any history of earlier calls) influences it. -/
theorem select_facets_independent_of_ctx_and_state
    (m : Metrics) (e₁ e₂ : FacetActivationEngine) (c₁ c₂ : Context) :
    (select_facets e₁ m c₁).1 = (select_facets e₂ m c₂).1 := rfl

/-! ## Claims about `redact_pii` -/

/-- The e-mail matcher never fires on an all-digit text: digits are
local-part characters, so the maximal local run swallows the whole text and
no `@` can follow. -/
theorem reEmail_on_digits (prev : Option Char) (l : List Char)
    (h : ∀ c ∈ l, c.isDigit) : reEmail prev l = none := by
  have hd : l.dropWhile isLocalChar = [] := by
    rw [List.dropWhile_eq_nil_iff]
    intro c hc
    have hdig := h c hc
    simp [isLocalChar, Char.isAlphanum, hdig]
  unfold reEmail
  rw [hd]
  by_cases hb : boundary prev l.head? = false
  · simp [hb]
  · by_cases hloc : (l.takeWhile isLocalChar).isEmpty <;> simp [hb, hloc]

/-- The e-mail substitution is the identity on an all-digit text. -/
theorem subGo_email_on_digits (rep : List Char) (fuel : Nat) (prev : Option Char)
    (l : List Char) (h : ∀ c ∈ l, c.isDigit) :
    subGo reEmail rep fuel prev l = l := by
  induction fuel generalizing prev l with
  | zero => rfl
  | succ n ih =>
    cases l with
    | nil => rfl
    | cons c rest =>
      unfold subGo
      rw [reEmail_on_digits prev (c :: rest) h]
      rw [ih (some c) rest (fun x hx => h x (List.mem_cons_of_mem c hx))]

/-- The phone matcher consumes a whole all-digit text of length ≥ 9 in one
match starting at the first character. -/
theorem rePhone_on_digits (c : Char) (rest : List Char)
    (hc : c.isDigit) (hrest : ∀ x ∈ rest, x.isDigit) (hlen : 8 ≤ rest.length) :
    rePhone none (c :: rest) = some (rest.length + 1) := by
  have hrun : rest.takeWhile isPhoneChar = rest := by
    rw [List.takeWhile_eq_self_iff]
    intro x hx
    simp [isPhoneChar, hrest x hx]
  have hrev : rest.reverse.takeWhile (fun x => x.isDigit = false) = [] := by
    cases hr : rest.reverse with
    | nil => rfl
    | cons y ys =>
      have hy : y ∈ rest := by
        have : y ∈ rest.reverse := by rw [hr]; exact List.mem_cons_self y ys
        exact List.mem_reverse.mp this
      simp [List.takeWhile_cons, hrest y hy]
  have hne : (c = '+') = False := by
    simp only [eq_iff_iff, iff_false]
    intro he
    rw [he] at hc
    exact absurd hc (by decide)
  unfold rePhone
  simp only [Option.getD, List.head?_cons, Option.some.injEq, hne, if_false,
    Bool.false_eq_true, List.drop_zero]
  simp only [hc, Bool.true_eq_false, if_false, hrun, hrev]
  simp only [List.length_nil, Nat.sub_zero, hlen, if_true, if_pos hlen]
  simp [Nat.add_comm]

/-- C2 counterexample: `redact_pii` replaces a bare 16-digit
payment-card-like run with `<PHONE>`, not with the card placeholder
`<CARD>` — the phone pattern runs first and matches any undelimited digit
run of length ≥ 9, so the card pattern never sees it. -/
theorem redact_card_run_counterexample :
    redact_pii "4111111111111111" = "<PHONE>" ∧
    redact_pii "4111111111111111" ≠ "<CARD>" := by
  constructor
  · decide
  · decide

/-- C2 (amended): `redact_pii` applies the five substitutions in their fixed
order, but a bare payment-card-like run of 13–19 digits is replaced by the
*phone* placeholder `<PHONE>` (the earlier phone pattern matches every
undelimited digit run of 9 or more digits), not by `<CARD>`. -/
theorem redact_digit_run_gets_phone (l : List Char)
    (hd : ∀ c ∈ l, c.isDigit) (h13 : 13 ≤ l.length) (h19 : l.length ≤ 19) :
    redact_pii (String.mk l) = "<PHONE>" := by
  have e1 : subst reEmail "<EMAIL>" l = l :=
    subGo_email_on_digits "<EMAIL>".data (l.length + 1) none l hd
  cases l with
  | nil => simp at h13
  | cons c rest =>
    have hc : c.isDigit := hd c (List.mem_cons_self c rest)
    have hrest : ∀ x ∈ rest, x.isDigit := fun x hx => hd x (List.mem_cons_of_mem c hx)
    have hlen : 8 ≤ rest.length := by
      have : rest.length + 1 = (c :: rest).length := rfl
      omega
    have hnil : ∀ (fuel : Nat) (prev : Option Char),
        subGo rePhone "<PHONE>".data fuel prev [] = [] := by
      intro fuel prev
      cases fuel <;> rfl
    have e2 : subst rePhone "<PHONE>" (c :: rest) = "<PHONE>".data := by
      show subGo rePhone "<PHONE>".data ((c :: rest).length + 1) none (c :: rest) =
        "<PHONE>".data
      rw [List.length_cons]
      unfold subGo
      rw [rePhone_on_digits c rest hc hrest hlen]
      simp only [Nat.add_sub_cancel, List.drop_length, hnil, List.append_nil]
    show (String.mk (subst rePass "<PASS>" (subst reIban "<IBAN?>"
      (subst reCard "<CARD>" (subst rePhone "<PHONE>"
        (subst reEmail "<EMAIL>" (c :: rest))))))) = "<PHONE>"
    rw [e1, e2]
    decide

/-- Witness for C2 (amended): the 16-digit run `4111111111111111`. -/
theorem redact_digit_run_gets_phone_witness :
    redact_pii (String.mk (List.replicate 16 '4')) = "<PHONE>" :=
  redact_digit_run_gets_phone (List.replicate 16 '4')
    (by decide) (by decide) (by decide)

/-- C8 counterexample: `redact_pii` is not idempotent.  On
`"a@bb.cc123456789x"` the first pass replaces the digit run with `<PHONE>`
(the digit right after `cc` blocks the e-mail TLD's trailing `\b`, so the
e-mail pattern cannot fire), and the second pass then finds the now-exposed
e-mail `a@bb.cc` — so a second application changes the output again. -/
theorem redact_not_idempotent_counterexample :
    redact_pii "a@bb.cc123456789x" = "a@bb.cc<PHONE>x" ∧
    redact_pii (redact_pii "a@bb.cc123456789x") = "<EMAIL><PHONE>x" ∧
    redact_pii (redact_pii "a@bb.cc123456789x") ≠ redact_pii "a@bb.cc123456789x" := by
  refine ⟨by decide, by decide, by decide⟩

/-- Splitting a successful `Option.orElse`. -/
theorem orElse_eq_some {α : Type} (a b : Option α) (k : α) (h : (a <|> b) = some k) :
    a = some k ∨ b = some k := by
  cases a with
  | none => right; simpa using h
  | some x => left; simpa using h

/-- Every element of `l.take k` satisfies `p` when `k` does not exceed the
maximal `p`-run of `l`. -/
theorem take_of_takeWhile_all (p : Char → Bool) (l : List Char) (k : Nat)
    (hk : k ≤ (l.takeWhile p).length) : ∀ x ∈ l.take k, p x = true := by
  induction l generalizing k with
  | nil => intro x hx; simp at hx
  | cons a t ih =>
    cases hpa : p a with
    | true =>
      cases k with
      | zero => intro x hx; simp at hx
      | succ m =>
        rw [List.takeWhile_cons_of_pos hpa, List.length_cons] at hk
        intro x hx
        rw [List.take_succ_cons] at hx
        rcases List.mem_cons.mp hx with h1 | h2
        · rw [h1]; exact hpa
        · exact ih m (Nat.le_of_succ_le_succ hk) x h2
    | false =>
      rw [List.takeWhile_cons_of_neg (by simp [hpa])] at hk
      simp only [List.length_nil, Nat.le_zero] at hk
      subst hk
      intro x hx; simp at hx

/-- Taking exactly the maximal `p`-run yields the maximal `p`-run. -/
theorem take_takeWhile_length (p : Char → Bool) :
    ∀ l : List Char, l.take (l.takeWhile p).length = l.takeWhile p
  | [] => rfl
  | a :: t => by
    cases hpa : p a with
    | true =>
      rw [List.takeWhile_cons_of_pos hpa, List.length_cons, List.take_succ_cons,
        take_takeWhile_length p t]
    | false => rw [List.takeWhile_cons_of_neg (by simp [hpa])]; rfl

/-- Taking `a.length + m` characters of `a ++ b` takes all of `a` and `m`
of `b`. -/
theorem take_append_length {α : Type} (a b : List α) (m : Nat) :
    (a ++ b).take (a.length + m) = a ++ b.take m := by
  induction a with
  | nil => simp
  | cons x xs ih =>
    rw [List.cons_append, List.length_cons, Nat.succ_add, List.take_succ_cons, ih]
    rfl

/-- Substitution with an lt-clean matcher and a replacement containing a `<`
never loses `<` characters, and preserves their number exactly only by
changing nothing. -/
theorem subGo_count (m : Option Char → List Char → Option Nat) (rep : List Char)
    (hrep : 1 ≤ cnt rep) (hm : LtClean m) :
    ∀ (fuel : Nat) (prev : Option Char) (l : List Char),
      cnt l ≤ cnt (subGo m rep fuel prev l) ∧
      (cnt (subGo m rep fuel prev l) = cnt l → subGo m rep fuel prev l = l) := by
  intro fuel
  induction fuel with
  | zero => intro prev l; exact ⟨Nat.le_refl _, fun _ => rfl⟩
  | succ f ih =>
    intro prev l
    cases l with
    | nil => exact ⟨Nat.le_refl _, fun _ => rfl⟩
    | cons c rest =>
      cases hmatch : m prev (c :: rest) with
      | some n =>
        obtain ⟨hn1, hspan⟩ := hm prev (c :: rest) n hmatch
        have hres : subGo m rep (f + 1) prev (c :: rest) =
            rep ++ subGo m rep f (((c :: rest).take n).getLast?) (rest.drop (n - 1)) := by
          simp only [subGo, hmatch]
        have htake : cnt ((c :: rest).take n) = 0 := by
          rw [cnt, List.count_eq_zero]
          intro hmem
          exact hspan '<' hmem rfl
        have hdrop : (c :: rest).drop n = rest.drop (n - 1) := by
          cases n with
          | zero => omega
          | succ k => simp
        have hdecomp : cnt (c :: rest) = cnt (rest.drop (n - 1)) := by
          have h1 : cnt (c :: rest) = cnt ((c :: rest).take n) + cnt ((c :: rest).drop n) := by
            conv_lhs => rw [← List.take_append_drop n (c :: rest)]
            simp only [cnt, List.count_append]
          rw [h1, htake, hdrop, Nat.zero_add]
        have hx := (ih (((c :: rest).take n).getLast?) (rest.drop (n - 1))).1
        have happ : cnt (rep ++ subGo m rep f (((c :: rest).take n).getLast?)
            (rest.drop (n - 1))) =
            cnt rep + cnt (subGo m rep f (((c :: rest).take n).getLast?)
              (rest.drop (n - 1))) := by
          simp only [cnt, List.count_append]
        constructor
        · rw [hres, happ]
          omega
        · intro heq
          rw [hres, happ] at heq
          omega
      | none =>
        have hres : subGo m rep (f + 1) prev (c :: rest) = c :: subGo m rep f (some c) rest := by
          simp only [subGo, hmatch]
        have hx := ih (some c) rest
        have hc1 : cnt (c :: subGo m rep f (some c) rest) =
            cnt (subGo m rep f (some c) rest) + (if c == '<' then 1 else 0) := by
          simp only [cnt, List.count_cons]
        have hc2 : cnt (c :: rest) = cnt rest + (if c == '<' then 1 else 0) := by
          simp only [cnt, List.count_cons]
        constructor
        · rw [hres, hc1, hc2]
          have := hx.1
          omega
        · intro heq
          rw [hres] at heq ⊢
          rw [hc1, hc2] at heq
          have heq2 : cnt (subGo m rep f (some c) rest) = cnt rest := by omega
          rw [hx.2 heq2]

/-- A character of a class that excludes `<` is not `<`. -/
theorem ne_lt_of_pred (p : Char → Bool) (x : Char) (hp : p '<' = false)
    (hx : p x = true) : x ≠ '<' := by
  intro he
  rw [he, hp] at hx
  exact absurd hx (by decide)

/-- The IBAN matcher spans `[A-Z]`/`\\d`/`[A-Z0-9]` characters only. -/
theorem reIban_ltclean : LtClean reIban := by
  intro prev l n h
  simp only [reIban] at h
  split at h
  · exact absurd h (by simp)
  next hb =>
    split at h
    next a b c d rest =>
      split at h
      next h1 =>
        split at h
        next h2 =>
          have hn : n = 4 + (rest.takeWhile (fun x => x.isUpper || x.isDigit)).length := by
            injection h with h2
            exact h2.symm
          refine ⟨by omega, ?_⟩
          intro x hx
          have htk : (a :: b :: c :: d :: rest).take n =
              a :: b :: c :: d ::
                rest.take (rest.takeWhile (fun x => x.isUpper || x.isDigit)).length := by
            rw [hn, Nat.add_comm]
            rfl
          rw [htk] at hx
          simp only [List.mem_cons] at hx
          rcases hx with rfl | rfl | rfl | rfl | hx
          · exact ne_lt_of_pred Char.isUpper x (by decide) h1.1
          · exact ne_lt_of_pred Char.isUpper x (by decide) h1.2.1
          · exact ne_lt_of_pred Char.isDigit x (by decide) h1.2.2.1
          · exact ne_lt_of_pred Char.isDigit x (by decide) h1.2.2.2
          · exact ne_lt_of_pred (fun y => y.isUpper || y.isDigit) x (by decide)
              (take_of_takeWhile_all _ rest _ (Nat.le_refl _) x hx)
        next => exact absurd h (by simp)
      next => exact absurd h (by simp)
    next => exact absurd h (by simp)

/-- The phone matcher spans `+`/`\\d`/`[\\d \\-()]` characters only. -/
theorem rePhone_ltclean : LtClean rePhone := by
  intro prev l n h
  simp only [rePhone] at h
  split at h
  · exact absurd h (by simp)
  next hd =>
    split at h
    next c rest heq =>
      split at h
      next => exact absurd h (by simp)
      next hdig =>
        split at h
        next h8 =>
          have hcdig : c.isDigit = true := by simpa using hdig
          by_cases hplus : l.head? = some '+'
          · rw [if_pos hplus] at h heq
            cases l with
            | nil => simp at hplus
            | cons c0 t =>
              have hc0 : c0 = '+' := by simpa using hplus
              subst hc0
              have ht : t = c :: rest := heq
              subst ht
              have hn : n = 1 + 1 + ((rest.takeWhile isPhoneChar).length -
                  ((rest.takeWhile isPhoneChar).reverse.takeWhile
                    (fun x => x.isDigit = false)).length) := by
                injection h with h2
                exact h2.symm
              refine ⟨by omega, ?_⟩
              intro x hx
              have htk : ('+' :: c :: rest).take n =
                  '+' :: c :: rest.take ((rest.takeWhile isPhoneChar).length -
                    ((rest.takeWhile isPhoneChar).reverse.takeWhile
                      (fun x => x.isDigit = false)).length) := by
                rw [hn, (by omega : 1 + 1 + ((rest.takeWhile isPhoneChar).length -
                  ((rest.takeWhile isPhoneChar).reverse.takeWhile
                    (fun x => x.isDigit = false)).length) =
                  ((rest.takeWhile isPhoneChar).length -
                  ((rest.takeWhile isPhoneChar).reverse.takeWhile
                    (fun x => x.isDigit = false)).length) + 2)]
                rfl
              rw [htk] at hx
              simp only [List.mem_cons] at hx
              rcases hx with rfl | rfl | hx
              · decide
              · exact ne_lt_of_pred Char.isDigit x (by decide) hcdig
              · exact ne_lt_of_pred isPhoneChar x (by decide)
                  (take_of_takeWhile_all isPhoneChar rest _ (Nat.sub_le _ _) x hx)
          · rw [if_neg hplus] at h heq
            have hl : l = c :: rest := heq
            subst hl
            have hn : n = 0 + 1 + ((rest.takeWhile isPhoneChar).length -
                ((rest.takeWhile isPhoneChar).reverse.takeWhile
                  (fun x => x.isDigit = false)).length) := by
              injection h with h2
              exact h2.symm
            refine ⟨by omega, ?_⟩
            intro x hx
            have htk : (c :: rest).take n =
                c :: rest.take ((rest.takeWhile isPhoneChar).length -
                  ((rest.takeWhile isPhoneChar).reverse.takeWhile
                    (fun x => x.isDigit = false)).length) := by
              rw [hn, (by omega : 0 + 1 + ((rest.takeWhile isPhoneChar).length -
                ((rest.takeWhile isPhoneChar).reverse.takeWhile
                  (fun x => x.isDigit = false)).length) =
                ((rest.takeWhile isPhoneChar).length -
                ((rest.takeWhile isPhoneChar).reverse.takeWhile
                  (fun x => x.isDigit = false)).length) + 1)]
              rfl
            rw [htk] at hx
            simp only [List.mem_cons] at hx
            rcases hx with rfl | hx
            · exact ne_lt_of_pred Char.isDigit x (by decide) hcdig
            · exact ne_lt_of_pred isPhoneChar x (by decide)
                (take_of_takeWhile_all isPhoneChar rest _ (Nat.sub_le _ _) x hx)
        next => exact absurd h (by simp)
    next => exact absurd h (by simp)

/-- `ciPrefix lab l = some rest` means `rest` is `l` minus its first
`lab.length` characters, and each consumed character case-folds to some
character of the label. -/
theorem ciPrefix_spec : ∀ (lab l rest : List Char), ciPrefix lab l = some rest →
    l.drop lab.length = rest ∧
      ∀ x ∈ l.take lab.length, ∃ p ∈ lab, lowerC x = lowerC p := by
  intro lab
  induction lab with
  | nil =>
    intro l rest h
    have hr : l = rest := by simpa [ciPrefix] using h
    subst hr
    exact ⟨rfl, by intro x hx; simp at hx⟩
  | cons p ps ih =>
    intro l rest h
    cases l with
    | nil => exact absurd h (by simp [ciPrefix])
    | cons c cs =>
      simp only [ciPrefix] at h
      split at h
      next hlc =>
        obtain ⟨hdrop, htake⟩ := ih cs rest h
        refine ⟨hdrop, ?_⟩
        intro x hx
        have hx' : x ∈ c :: cs.take ps.length := hx
        rcases List.mem_cons.mp hx' with rfl | hx2
        · exact ⟨p, List.mem_cons_self p ps, hlc⟩
        · obtain ⟨q, hq, hqe⟩ := htake x hx2
          exact ⟨q, List.mem_cons_of_mem p hq, hqe⟩
      next => exact absurd h (by simp)

/-- The passport matcher spans label characters (case-folding into the
label), `[#: ]` separators and `\\w` word characters only. -/
theorem rePass_ltclean : LtClean rePass := by
  intro prev l n h
  simp only [rePass] at h
  split at h
  · exact absurd h (by simp)
  next hb =>
    obtain ⟨lab, hmem, hlab⟩ := List.exists_of_findSome?_eq_some h
    have hlabc : ∀ p ∈ lab, lowerC p ≠ '<' := by
      simp only [List.mem_cons, List.not_mem_nil, or_false] at hmem
      rcases hmem with rfl | rfl
      · decide
      · decide
    split at hlab
    next rest hci =>
      split at hlab
      next => exact absurd hlab (by simp)
      next hwf =>
        injection hlab with hn'
        obtain ⟨hdrop, htake⟩ := ciPrefix_spec lab l rest hci
        have hwne : (rest.drop (rest.takeWhile isPassSep).length).takeWhile isWordChar ≠ [] := by
          intro he
          rw [he] at hwf
          simp at hwf
        have hwpos := List.length_pos.mpr hwne
        refine ⟨by omega, ?_⟩
        intro x hx
        rw [show n = lab.length + ((rest.takeWhile isPassSep).length +
            ((rest.drop (rest.takeWhile isPassSep).length).takeWhile isWordChar).length)
          from by omega] at hx
        rw [List.take_add, hdrop, List.take_add] at hx
        rcases List.mem_append.mp hx with hx1 | hx2
        · obtain ⟨pch, hp, he⟩ := htake x hx1
          intro hxeq
          exact hlabc pch hp (by rw [← he, hxeq]; decide)
        rcases List.mem_append.mp hx2 with hx3 | hx4
        · exact ne_lt_of_pred isPassSep x (by decide)
            (take_of_takeWhile_all isPassSep rest _ (Nat.le_refl _) x hx3)
        · exact ne_lt_of_pred isWordChar x (by decide)
            (take_of_takeWhile_all isWordChar (rest.drop (rest.takeWhile isPassSep).length) _
              (Nat.le_refl _) x hx4)
    next => exact absurd hlab (by simp)

/-- The email matcher spans local-class characters, `@` and domain-class
characters only. -/
theorem reEmail_ltclean : LtClean reEmail := by
  intro prev l n h
  simp only [reEmail] at h
  split at h
  · exact absurd h (by simp)
  next hb =>
    split at h
    · exact absurd h (by simp)
    next hloc =>
      split at h
      next rest2 heq =>
        split at h
        next consumed hfind =>
          injection h with hn'
          obtain ⟨d, hdmem, hd⟩ := List.exists_of_findSome?_eq_some hfind
          have hdlt : d < (rest2.takeWhile isDomChar).length :=
            List.mem_range.mp (List.mem_reverse.mp hdmem)
          split at hd
          next hdcond =>
            simp only [emailTld] at hd
            split at hd
            next htld =>
              injection hd with hcons
              have htle : (((rest2.takeWhile isDomChar).drop (d + 1)).takeWhile
                  isAsciiLetter).length ≤ ((rest2.takeWhile isDomChar).drop (d + 1)).length :=
                (List.takeWhile_prefix isAsciiLetter).length_le
              have hdroplen : (((rest2.takeWhile isDomChar).drop (d + 1)).length : Nat) =
                  (rest2.takeWhile isDomChar).length - (d + 1) := List.length_drop ..
              have hcle : consumed ≤ (rest2.takeWhile isDomChar).length := by omega
              have hlsplit : l.takeWhile isLocalChar ++ ('@' :: rest2) = l := by
                rw [← heq]
                exact List.takeWhile_append_dropWhile _ _
              refine ⟨by omega, ?_⟩
              intro x hx
              rw [show n = (l.takeWhile isLocalChar).length + (1 + consumed) from by omega]
                at hx
              have hta := take_append_length (l.takeWhile isLocalChar) ('@' :: rest2)
                (1 + consumed)
              rw [hlsplit] at hta
              rw [hta, (by omega : 1 + consumed = consumed + 1)] at hx
              have hx' : x ∈ l.takeWhile isLocalChar ++ '@' :: rest2.take consumed := hx
              rcases List.mem_append.mp hx' with hx1 | hx2
              · exact ne_lt_of_pred isLocalChar x (by decide) (List.mem_takeWhile_imp hx1)
              rcases List.mem_cons.mp hx2 with rfl | hx3
              · decide
              · exact ne_lt_of_pred isDomChar x (by decide)
                  (take_of_takeWhile_all isDomChar rest2 consumed hcle x hx3)
            next => exact absurd hd (by simp)
          next => exact absurd hd (by simp)
        next => exact absurd h (by simp)
      next => exact absurd h (by simp)

/-- Any span consumed by the card group matcher consists of digits and
`[ -]` separators only. -/
theorem cardTail_span : ∀ (b done : Nat) (prevc : Option Char) (l : List Char) (k : Nat),
    cardTail b done prevc l = some k → ∀ x ∈ l.take k, x ≠ '<' := by
  intro b
  induction b with
  | zero =>
    intro done prevc l k h
    simp only [cardTail] at h
    split at h
    next hc =>
      injection h with hk
      intro x hx
      rw [← hk] at hx
      simp at hx
    next => exact absurd h (by simp)
  | succ b ih =>
    intro done prevc l k h
    simp only [cardTail] at h
    rcases orElse_eq_some _ _ _ h with h1 | h2
    · split at h1
      next c rest =>
        split at h1
        next hcdig =>
          rcases orElse_eq_some _ _ _ h1 with hA | hB
          · split at hA
            next d rest2 =>
              split at hA
              next hsep =>
                obtain ⟨k2, hk2, hkeq⟩ := Option.map_eq_some'.mp hA
                intro x hx
                rw [← hkeq] at hx
                have hx' : x ∈ c :: d :: rest2.take k2 := hx
                rcases List.mem_cons.mp hx' with rfl | hx2
                · exact ne_lt_of_pred Char.isDigit x (by decide) hcdig
                rcases List.mem_cons.mp hx2 with rfl | hx3
                · simp only [Bool.or_eq_true, decide_eq_true_eq] at hsep
                  rcases hsep with rfl | rfl
                  · decide
                  · decide
                · exact ih (done + 1) (some d) rest2 k2 hk2 x hx3
              next => exact absurd hA (by simp)
            next => exact absurd hA (by simp)
          · obtain ⟨k1, hk1, hkeq⟩ := Option.map_eq_some'.mp hB
            intro x hx
            rw [← hkeq] at hx
            have hx' : x ∈ c :: rest.take k1 := hx
            rcases List.mem_cons.mp hx' with rfl | hx2
            · exact ne_lt_of_pred Char.isDigit x (by decide) hcdig
            · exact ih (done + 1) (some c) rest k1 hk1 x hx2
        next => exact absurd h1 (by simp)
      next => exact absurd h1 (by simp)
    · split at h2
      next =>
        injection h2 with hk
        intro x hx
        rw [← hk] at hx
        simp at hx
      next => exact absurd h2 (by simp)

/-- Starting with zero consumed groups, a successful card group match
consumes at least one character. -/
theorem cardTail_pos (b : Nat) (prevc : Option Char) (l : List Char) (k : Nat)
    (h : cardTail b 0 prevc l = some k) : 1 ≤ k := by
  cases b with
  | zero =>
    simp only [cardTail] at h
    split at h
    next hc => exact absurd hc.1 (by omega)
    next => exact absurd h (by simp)
  | succ b =>
    simp only [cardTail] at h
    rcases orElse_eq_some _ _ _ h with h1 | h2
    · split at h1
      next c rest =>
        split at h1
        next hcdig =>
          rcases orElse_eq_some _ _ _ h1 with hA | hB
          · split at hA
            next d rest2 =>
              split at hA
              next hsep =>
                obtain ⟨k2, hk2, hkeq⟩ := Option.map_eq_some'.mp hA
                omega
              next => exact absurd hA (by simp)
            next => exact absurd hA (by simp)
          · obtain ⟨k1, hk1, hkeq⟩ := Option.map_eq_some'.mp hB
            omega
        next => exact absurd h1 (by simp)
      next => exact absurd h1 (by simp)
    · split at h2
      next hc => exact absurd hc.1 (by omega)
      next => exact absurd h2 (by simp)

/-- The card matcher consumes at least one character and spans digits and
`[ -]` separators only. -/
theorem reCard_ltclean : LtClean reCard := by
  intro prev l n h
  simp only [reCard] at h
  split at h
  · exact absurd h (by simp)
  next hb => exact ⟨cardTail_pos 19 prev l n h, cardTail_span 19 0 prev l n h⟩

/-- A single `pat.sub` pass with an lt-clean matcher and a `<`-bearing
replacement never decreases the `<`-count, and leaves it unchanged only by
being a no-op. -/
theorem subst_fix_of_count (m : Option Char → List Char → Option Nat) (rep : String)
    (hrep : 1 ≤ cnt rep.data) (hm : LtClean m) (l : List Char) :
    cnt l ≤ cnt (subst m rep l) ∧ (cnt (subst m rep l) = cnt l → subst m rep l = l) :=
  subGo_count m rep.data hrep hm (l.length + 1) none l

/-- C8 (amended): `redact_pii` is *not* idempotent in general — a later
pattern's substitution can expose a match for an earlier pattern (see the
counterexample) — but a second application is a no-op precisely when each of
the five substitutions already fixes the first application's output: no
matcher ever spans a `<` while every replacement inserts one, so the
`<`-count strictly increases under any replacement in the second pass. -/
theorem redact_idempotent_iff_output_fixed (s : String) :
    redact_pii (redact_pii s) = redact_pii s ↔
      (subst reEmail "<EMAIL>" (redact_pii s).data = (redact_pii s).data ∧
       subst rePhone "<PHONE>" (redact_pii s).data = (redact_pii s).data ∧
       subst reCard "<CARD>" (redact_pii s).data = (redact_pii s).data ∧
       subst reIban "<IBAN?>" (redact_pii s).data = (redact_pii s).data ∧
       subst rePass "<PASS>" (redact_pii s).data = (redact_pii s).data) := by
  constructor
  · intro h
    have hfix : subst rePass "<PASS>" (subst reIban "<IBAN?>" (subst reCard "<CARD>"
        (subst rePhone "<PHONE>" (subst reEmail "<EMAIL>" (redact_pii s).data)))) =
        (redact_pii s).data := congrArg String.data h
    have c1 := subst_fix_of_count reEmail "<EMAIL>" (by decide) reEmail_ltclean
      (redact_pii s).data
    have c2 := subst_fix_of_count rePhone "<PHONE>" (by decide) rePhone_ltclean
      (subst reEmail "<EMAIL>" (redact_pii s).data)
    have c3 := subst_fix_of_count reCard "<CARD>" (by decide) reCard_ltclean
      (subst rePhone "<PHONE>" (subst reEmail "<EMAIL>" (redact_pii s).data))
    have c4 := subst_fix_of_count reIban "<IBAN?>" (by decide) reIban_ltclean
      (subst reCard "<CARD>" (subst rePhone "<PHONE>"
        (subst reEmail "<EMAIL>" (redact_pii s).data)))
    have c5 := subst_fix_of_count rePass "<PASS>" (by decide) rePass_ltclean
      (subst reIban "<IBAN?>" (subst reCard "<CARD>" (subst rePhone "<PHONE>"
        (subst reEmail "<EMAIL>" (redact_pii s).data))))
    have a1 := c1.1
    have a2 := c2.1
    have a3 := c3.1
    have a4 := c4.1
    have a5 := c5.1
    have hc0 := congrArg cnt hfix
    have f1 : subst reEmail "<EMAIL>" (redact_pii s).data = (redact_pii s).data :=
      c1.2 (by omega)
    have f2 := c2.2 (by omega)
    have f3 := c3.2 (by omega)
    have f4 := c4.2 (by omega)
    have f5 := c5.2 (by omega)
    rw [f1] at f2 f3 f4 f5
    rw [f2] at f3 f4 f5
    rw [f3] at f4 f5
    rw [f4] at f5
    exact ⟨f1, f2, f3, f4, f5⟩
  · rintro ⟨h1, h2, h3, h4, h5⟩
    show (String.mk (subst rePass "<PASS>" (subst reIban "<IBAN?>"
      (subst reCard "<CARD>" (subst rePhone "<PHONE>"
        (subst reEmail "<EMAIL>" (redact_pii s).data)))))) = redact_pii s
    rw [h1, h2, h3, h4, h5]

/-- Witness for C8 (amended): `"hello a@b.cc"` redacts to `"hello <EMAIL>"`,
which every substitution fixes, so redaction is idempotent there. -/
theorem redact_idempotent_iff_output_fixed_witness :
    redact_pii (redact_pii "hello a@b.cc") = redact_pii "hello a@b.cc" :=
  (redact_idempotent_iff_output_fixed "hello a@b.cc").mpr
    ⟨by decide, by decide, by decide, by decide, by decide⟩

/-! ## Claims about the monolith `Memory` class -/

/-- When every record's `id` (defaulted to 0) is a Python number, the `max`
comprehension of `_next_id` raises nothing. -/
theorem idsOf_isOk (l : List Rec) (h : ∀ r ∈ l, isPyInt (rGetD r "id" (Val.vInt 0))) :
    ∃ ns, idsOf l = .ok ns := by
  induction l with
  | nil => exact ⟨[], rfl⟩
  | cons it rest ih =>
    obtain ⟨ns, hns⟩ := ih (fun r hr => h r (List.mem_cons_of_mem it hr))
    have hit := h it (List.mem_cons_self it rest)
    cases hv : rGetD it "id" (Val.vInt 0) with
    | vInt i =>
      refine ⟨i :: ns, ?_⟩
      unfold idsOf
      rw [hv, hns]
      rfl
    | vBool b =>
      refine ⟨(if b then 1 else 0) :: ns, ?_⟩
      unfold idsOf
      rw [hv, hns]
      rfl
    | vNull => rw [hv] at hit; exact absurd hit (by decide)
    | vRat q => rw [hv] at hit; exact absurd hit (by simp [isPyInt])
    | vStr s => rw [hv] at hit; exact absurd hit (by simp [isPyInt])
    | vNil => rw [hv] at hit; exact absurd hit (by decide)
    | vCons a b => rw [hv] at hit; exact absurd hit (by simp [isPyInt])

/-- `_next_id` succeeds on numeric ids. -/
theorem _next_id_isOk (l : List Rec)
    (h : ∀ r ∈ l, isPyInt (rGetD r "id" (Val.vInt 0))) :
    ∃ n, _next_id l = .ok n := by
  unfold _next_id
  by_cases he : l.isEmpty
  · exact ⟨1, by rw [if_pos he]⟩
  · obtain ⟨ns, hns⟩ := idsOf_isOk l h
    rw [if_neg he]
    cases ns with
    | nil => exact ⟨1, by rw [hns]; rfl⟩
    | cons a t => exact ⟨t.foldl max a + 1, by rw [hns]; rfl⟩

/-- C1 is a code bug: for every state whose ids pass the `max` of
`_next_id`, and every input, `Memory.add_archive` raises
`NameError` — the `next_review` assignment calls `days_from_confidence`,
which is not defined anywhere in the module (the helper at line 32 is
`days_from_conf`) — so it never validates, never appends and never returns
the record that the claim describes. -/
theorem add_archive_always_raises (mm : Memory) (title thought : String)
    (tags : List String) (confidence : Rat) (evidence : Option (List String))
    (now : String) (hids : ∀ r ∈ mm.arc, isPyInt (rGetD r "id" (Val.vInt 0))) :
    add_archive mm title thought tags confidence evidence now =
      .error "NameError: name days_from_confidence is not defined" := by
  obtain ⟨n, hn⟩ := _next_id_isOk mm.arc hids
  unfold add_archive
  simp only [hn]
  rfl

/-- Witness for C1: a fresh memory and a plain valid input. -/
theorem add_archive_always_raises_witness :
    add_archive ⟨[], []⟩ "t" "x" [] (mkRat 3 4) none "2025-01-01T00:00:00Z" =
      .error "NameError: name days_from_confidence is not defined" :=
  add_archive_always_raises ⟨[], []⟩ "t" "x" [] (mkRat 3 4) none
    "2025-01-01T00:00:00Z" (by decide)

/-- C6 is a code bug: `Memory.upgrade` (a) raises `NameError` as soon as an
archive record actually needs its `next_review` assigned, because the fix
expression calls the undefined `days_from_confidence` (the defined helper is
`days_from_conf`); and (b) for a shadow record missing `review_after` it
assigns `date + 7` days flat even at confidence 0.9 ≥ 0.7, where the claim's
§4.2 rule demands `date + 3` days (which would be `2025-01-04…`, not the
`2025-01-08…` the code writes). -/
theorem upgrade_namerror_and_flat_7_days :
    upgrade ⟨[arcRecNoNR], []⟩ =
      .error "NameError: name days_from_confidence is not defined" ∧
    upgrade ⟨[], [shRecNoRA]⟩ =
      .ok (⟨[], [shRecNoRA ++ [("review_after", Val.vStr "2025-01-08T00:00:00Z")]]⟩, 1) ∧
    add_days "2025-01-01T00:00:00Z" 3 = .ok "2025-01-04T00:00:00Z" ∧
    mkRat 7 10 ≤ mkRat 9 10 := by
  refine ⟨by decide, by decide, by decide, by decide⟩

/-! ### `dedupe` (C7) -/

/-- A succeeding `jkeyArc` returns exactly the totalized key. -/
theorem jkeyArc_ok_eq (r : Rec) (h : (jkeyArc r).isOk = true) :
    jkeyArc r = .ok (keyArcD r) := by
  unfold jkeyArc keyArcD
  unfold jkeyArc at h
  cases h1 : rGetD r "title" (Val.vStr "") <;>
    cases h2 : rGetD r "thought" (Val.vStr "") <;>
      simp_all [Except.isOk, Except.toBool]

/-- A succeeding `jkeySh` returns exactly the totalized key. -/
theorem jkeySh_ok_eq (r : Rec) (h : (jkeySh r).isOk = true) :
    jkeySh r = .ok (keyShD r) := by
  unfold jkeySh keyShD
  unfold jkeySh at h
  cases h1 : rGetD r "signal" (Val.vStr "") <;>
    cases h2 : rGetD r "hypothesis" (Val.vStr "") <;>
      simp_all [Except.isOk, Except.toBool]

/-- Bind of a success, for rewriting `do`-chains. -/
theorem exbind_ok {α β : Type} (a : α) (f : α → Except String β) :
    (Except.ok a >>= f) = f a := rfl

/-- When every key computation succeeds, `uniq` is the pure seen-set
filter. -/
theorem uniq_eq_uniqP (k : Rec → Except String String) (kt : Rec → String)
    (l : List Rec) (hk : ∀ r ∈ l, k r = .ok (kt r)) (seen : List String) :
    uniq k seen l = .ok (uniqP kt seen l) := by
  induction l generalizing seen with
  | nil => rfl
  | cons x xs ih =>
    have hx := hk x (List.mem_cons_self x xs)
    have hxs := fun r hr => hk r (List.mem_cons_of_mem x hr)
    show (do
      let h ← k x
      if h ∈ seen then uniq k seen xs
      else do
        let out ← uniq k (h :: seen) xs
        Except.ok (x :: out)) = .ok (uniqP kt seen (x :: xs))
    rw [hx, exbind_ok]
    by_cases hmem : kt x ∈ seen
    · simp only [hmem, if_true]
      rw [ih hxs seen]
      simp [uniqP, hmem]
    · simp only [hmem, if_false]
      rw [ih hxs (kt x :: seen), exbind_ok]
      simp [uniqP, hmem]

/-- The pure seen-set filter is `specFirstOccur` of the records whose key is
not already seen. -/
theorem uniqP_eq_spec (kt : Rec → String) (l : List Rec) (seen : List String) :
    uniqP kt seen l = specFirstOccur kt (l.filter (fun x => decide (kt x ∉ seen))) := by
  induction l generalizing seen with
  | nil => simp [uniqP, specFirstOccur]
  | cons x xs ih =>
    by_cases hmem : kt x ∈ seen
    · have h0 : uniqP kt seen (x :: xs) = uniqP kt seen xs := by
        simp [uniqP, hmem]
      rw [h0, List.filter_cons]
      simp only [hmem, not_true_eq_false]
      rw [if_neg (by simp)]
      exact ih seen
    · have h1 : uniqP kt seen (x :: xs) = x :: uniqP kt (kt x :: seen) xs := by
        simp [uniqP, hmem]
      rw [h1, List.filter_cons]
      rw [if_pos (by simp [hmem])]
      rw [ih (kt x :: seen)]
      rw [specFirstOccur]
      congr 1
      rw [List.filter_filter]
      congr 1
      apply List.filter_congr
      intro y _
      by_cases hyx : kt y = kt x <;> by_cases hys : kt y ∈ seen <;>
        simp [hyx, hys, List.mem_cons]

/-- Members of the kept sublist are members of the log. -/
theorem mem_specFirstOccur (kt : Rec → String) (l : List Rec) (y : Rec)
    (h : y ∈ specFirstOccur kt l) : y ∈ l := by
  induction l using specFirstOccur.induct kt with
  | case1 => simp [specFirstOccur] at h
  | case2 x xs ih =>
    rw [specFirstOccur] at h
    rcases List.mem_cons.mp h with h1 | h2
    · rw [h1]; exact List.mem_cons_self x xs
    · exact List.mem_cons_of_mem x (List.mem_of_mem_filter (ih h2))

/-- The kept sublist has pairwise distinct keys. -/
theorem pairwise_keys_specFirstOccur (kt : Rec → String) (l : List Rec) :
    (specFirstOccur kt l).Pairwise (fun a b => kt a ≠ kt b) := by
  induction l using specFirstOccur.induct kt with
  | case1 => simp [specFirstOccur]
  | case2 x xs ih =>
    rw [specFirstOccur]
    refine List.Pairwise.cons ?_ ih
    intro y hy
    have hmem := mem_specFirstOccur _ _ _ hy
    have := List.of_mem_filter hmem
    intro he
    rw [he] at this
    simp at this

/-- A log whose keys are pairwise distinct is kept whole. -/
theorem specFirstOccur_of_pairwise (kt : Rec → String) (l : List Rec)
    (h : l.Pairwise (fun a b => kt a ≠ kt b)) : specFirstOccur kt l = l := by
  induction l with
  | nil => simp [specFirstOccur]
  | cons x xs ih =>
    rw [specFirstOccur]
    rcases List.pairwise_cons.mp h with ⟨hx, hxs⟩
    have : xs.filter (fun y => kt y != kt x) = xs := by
      rw [List.filter_eq_self]
      intro y hy
      simp only [bne_iff_ne, ne_eq]
      exact fun he => hx y hy he.symm
    rw [this, ih hxs]

/-- Keeping first occurrences is idempotent. -/
theorem specFirstOccur_idem (kt : Rec → String) (l : List Rec) :
    specFirstOccur kt (specFirstOccur kt l) = specFirstOccur kt l :=
  specFirstOccur_of_pairwise kt _ (pairwise_keys_specFirstOccur kt l)

/-- C7: `dedupe` keeps, per kind, exactly the first occurrence (in log
order) of each content key — `title|thought` for Архив, `signal|hypothesis`
for Shadow, the 16-hex-digit `jhash` being modelled as an injective key —
drops every later colliding record, returns the number removed per kind, and
is idempotent: running it again on the result removes nothing and changes
nothing. -/
theorem dedupe_first_occurrences_and_idempotent (mm : Memory)
    (hA : ∀ r ∈ mm.arc, (jkeyArc r).isOk = true)
    (hS : ∀ r ∈ mm.sh, (jkeySh r).isOk = true) :
    dedupe mm = .ok (⟨specFirstOccur keyArcD mm.arc, specFirstOccur keyShD mm.sh⟩,
      mm.arc.length - (specFirstOccur keyArcD mm.arc).length,
      mm.sh.length - (specFirstOccur keyShD mm.sh).length) ∧
    dedupe ⟨specFirstOccur keyArcD mm.arc, specFirstOccur keyShD mm.sh⟩ =
      .ok (⟨specFirstOccur keyArcD mm.arc, specFirstOccur keyShD mm.sh⟩, 0, 0) := by
  have filter_all : ∀ (kt : Rec → String) (l : List Rec),
      l.filter (fun x => decide (kt x ∉ ([] : List String))) = l := by
    intro kt l
    rw [List.filter_eq_self]
    intro y _
    simp
  have run : ∀ (l : List Rec) (k : Rec → Except String String) (kt : Rec → String),
      (∀ r ∈ l, k r = .ok (kt r)) →
      uniq k [] l = .ok (specFirstOccur kt l) := by
    intro l k kt hk
    rw [uniq_eq_uniqP k kt l hk [], uniqP_eq_spec, filter_all]
  have hA' : ∀ r ∈ mm.arc, jkeyArc r = .ok (keyArcD r) :=
    fun r hr => jkeyArc_ok_eq r (hA r hr)
  have hS' : ∀ r ∈ mm.sh, jkeySh r = .ok (keyShD r) :=
    fun r hr => jkeySh_ok_eq r (hS r hr)
  constructor
  · unfold dedupe
    rw [run mm.arc jkeyArc keyArcD hA', run mm.sh jkeySh keyShD hS']
    rfl
  · unfold dedupe
    have hA2 : ∀ r ∈ specFirstOccur keyArcD mm.arc, jkeyArc r = .ok (keyArcD r) :=
      fun r hr => hA' r (mem_specFirstOccur _ _ _ hr)
    have hS2 : ∀ r ∈ specFirstOccur keyShD mm.sh, jkeySh r = .ok (keyShD r) :=
      fun r hr => hS' r (mem_specFirstOccur _ _ _ hr)
    rw [run _ jkeyArc keyArcD hA2, run _ jkeySh keyShD hS2]
    rw [specFirstOccur_idem, specFirstOccur_idem]
    simp [exbind_ok, Nat.sub_self]

/-- Witness for C7: a concrete archive log with a duplicated
`title|thought` pair and a clean shadow log. -/
theorem dedupe_first_occurrences_and_idempotent_witness :
    dedupe ⟨[[("title", Val.vStr "a"), ("thought", Val.vStr "b")],
             [("title", Val.vStr "c"), ("thought", Val.vStr "d")],
             [("title", Val.vStr "a"), ("thought", Val.vStr "b"), ("id", Val.vInt 3)]],
            [[("signal", Val.vStr "s"), ("hypothesis", Val.vStr "h")]]⟩ =
      .ok (⟨specFirstOccur keyArcD
              [[("title", Val.vStr "a"), ("thought", Val.vStr "b")],
               [("title", Val.vStr "c"), ("thought", Val.vStr "d")],
               [("title", Val.vStr "a"), ("thought", Val.vStr "b"), ("id", Val.vInt 3)]],
            specFirstOccur keyShD [[("signal", Val.vStr "s"), ("hypothesis", Val.vStr "h")]]⟩,
        3 - (specFirstOccur keyArcD
              [[("title", Val.vStr "a"), ("thought", Val.vStr "b")],
               [("title", Val.vStr "c"), ("thought", Val.vStr "d")],
               [("title", Val.vStr "a"), ("thought", Val.vStr "b"), ("id", Val.vInt 3)]]).length,
        1 - (specFirstOccur keyShD
              [[("signal", Val.vStr "s"), ("hypothesis", Val.vStr "h")]]).length) :=
  (dedupe_first_occurrences_and_idempotent
    ⟨[[("title", Val.vStr "a"), ("thought", Val.vStr "b")],
      [("title", Val.vStr "c"), ("thought", Val.vStr "d")],
      [("title", Val.vStr "a"), ("thought", Val.vStr "b"), ("id", Val.vInt 3)]],
     [[("signal", Val.vStr "s"), ("hypothesis", Val.vStr "h")]]⟩
    (by decide) (by decide)).1

/-! ### `validate` (C9) -/

/-- Every record is either counted as checked or recorded as a problem. -/
theorem validateGo_counts (kind : String) (vf : Rec → Except String Unit)
    (l : List Rec) (seen : List Val) :
    (validateGo kind vf l seen).1 + (validateGo kind vf l seen).2.length = l.length := by
  induction l generalizing seen with
  | nil => rfl
  | cons it rest ih =>
    unfold validateGo
    cases hv : vf it with
    | error e =>
      simp only [List.length_cons]
      have := ih seen
      omega
    | ok u =>
      cases u
      by_cases hmem : rGetD it "id" Val.vNull ∈ seen
      · simp only [hmem, if_true, List.length_cons]
        have := ih seen
        omega
      · simp only [hmem, if_false, List.length_cons]
        have := ih (rGetD it "id" Val.vNull :: seen)
        omega

/-- Every recorded problem carries the kind of the log being scanned. -/
theorem validateGo_kinds (kind : String) (vf : Rec → Except String Unit)
    (l : List Rec) (seen : List Val) :
    ∀ p ∈ (validateGo kind vf l seen).2, p.kind = kind := by
  induction l generalizing seen with
  | nil => intro p hp; simp [validateGo] at hp
  | cons it rest ih =>
    intro p hp
    unfold validateGo at hp
    cases hv : vf it with
    | error e =>
      rw [hv] at hp
      rcases List.mem_cons.mp hp with h1 | h2
      · rw [h1]
      · exact ih seen p h2
    | ok u =>
      cases u
      rw [hv] at hp
      by_cases hmem : rGetD it "id" Val.vNull ∈ seen
      · simp only [hmem, if_true] at hp
        rcases List.mem_cons.mp hp with h1 | h2
        · rw [h1]
        · exact ih seen p h2
      · simp only [hmem, if_false] at hp
        exact ih _ p hp

/-- A record that fails its validator contributes a problem carrying its
kind, its `id` field and the error text. -/
theorem validateGo_records_error (kind : String) (vf : Rec → Except String Unit)
    (l : List Rec) (seen : List Val) (r : Rec) (hr : r ∈ l) (e : String)
    (he : vf r = .error e) :
    ∃ p ∈ (validateGo kind vf l seen).2,
      p.kind = kind ∧ p.id = rGet? r "id" ∧ p.err = e ∧ p.item = r := by
  induction l generalizing seen with
  | nil => simp at hr
  | cons it rest ih =>
    unfold validateGo
    rcases List.mem_cons.mp hr with h1 | h2
    · subst h1
      rw [he]
      exact ⟨⟨kind, rGet? r "id", e, r⟩, List.mem_cons_self _ _, rfl, rfl, rfl, rfl⟩
    · cases hv : vf it with
      | error e2 =>
        obtain ⟨p, hp, hps⟩ := ih seen h2
        exact ⟨p, List.mem_cons_of_mem _ hp, hps⟩
      | ok u =>
        cases u
        by_cases hmem : rGetD it "id" Val.vNull ∈ seen
        · simp only [hmem, if_true]
          obtain ⟨p, hp, hps⟩ := ih seen h2
          exact ⟨p, List.mem_cons_of_mem _ hp, hps⟩
        · simp only [hmem, if_false]
          exact ih _ h2

/-- A clean scan: all records valid, ids distinct and disjoint from `seen`
— no problems. -/
theorem validateGo_clean (kind : String) (vf : Rec → Except String Unit)
    (l : List Rec) (hok : ∀ r ∈ l, vf r = .ok ()) :
    ∀ seen, (∀ r ∈ l, rGetD r "id" Val.vNull ∉ seen) →
    (l.map (fun r => rGetD r "id" Val.vNull)).Nodup →
    (validateGo kind vf l seen).2 = [] := by
  induction l with
  | nil => intro seen _ _; rfl
  | cons it rest ih =>
    intro seen hseen hnd
    unfold validateGo
    rw [hok it (List.mem_cons_self it rest)]
    have hm : rGetD it "id" Val.vNull ∉ seen := hseen it (List.mem_cons_self it rest)
    simp only [hm, if_false]
    rw [List.map_cons, List.nodup_cons] at hnd
    obtain ⟨hhd, htl⟩ := hnd
    apply ih (fun r hr => hok r (List.mem_cons_of_mem it hr)) _ _ htl
    intro r hr
    rw [List.mem_cons]
    push_neg
    constructor
    · intro he
      exact hhd (by
        rw [← he]
        exact List.mem_map_of_mem (fun r => rGetD r "id" Val.vNull) hr)
    · exact hseen r (List.mem_cons_of_mem it hr)

/-- A duplicate id among valid records (or an id already seen) is flagged as
a `"duplicate id"` problem. -/
theorem validateGo_dup_flag (kind : String) (vf : Rec → Except String Unit)
    (l : List Rec) (hok : ∀ r ∈ l, vf r = .ok ()) :
    ∀ seen, (¬ (l.map (fun r => rGetD r "id" Val.vNull)).Nodup ∨
        (∃ r ∈ l, rGetD r "id" Val.vNull ∈ seen)) →
    ∃ p ∈ (validateGo kind vf l seen).2, p.err = "duplicate id" := by
  induction l with
  | nil =>
    intro seen h
    rcases h with h | ⟨r, hr, _⟩
    · simp at h
    · simp at hr
  | cons it rest ih =>
    intro seen h
    unfold validateGo
    rw [hok it (List.mem_cons_self it rest)]
    by_cases hmem : rGetD it "id" Val.vNull ∈ seen
    · simp only [hmem, if_true]
      exact ⟨⟨kind, rGet? it "id", "duplicate id", it⟩, List.mem_cons_self _ _, rfl⟩
    · simp only [hmem, if_false]
      apply ih (fun r hr => hok r (List.mem_cons_of_mem it hr))
      rcases h with hnd | ⟨r, hr, hrs⟩
      · rw [List.map_cons, List.nodup_cons] at hnd
        push_neg at hnd
        by_cases hin : rGetD it "id" Val.vNull ∈ rest.map (fun r => rGetD r "id" Val.vNull)
        · right
          obtain ⟨r, hr, hre⟩ := List.mem_map.mp hin
          exact ⟨r, hr, by rw [hre]; exact List.mem_cons_self _ _⟩
        · left
          exact hnd hin
      · rcases List.mem_cons.mp hr with h1 | h2
        · exact absurd (h1 ▸ hrs) hmem
        · exact Or.inr ⟨r, h2, List.mem_cons_of_mem _ hrs⟩

/-- C9 counterexample: the empty archive record violates several §4.2
requirements at once — `id`, `date` and `title` are all missing — yet
`validate` reports exactly one problem for it, `"archive missing id"`: the
per-record validator raises at the record's *first* violation, so the
report does not accumulate every violation of a failing record. -/
theorem validate_first_violation_only_counterexample :
    rHasKey ([] : Rec) "id" = false ∧
    rHasKey ([] : Rec) "date" = false ∧
    rHasKey ([] : Rec) "title" = false ∧
    (validate ⟨[([] : Rec)], []⟩).problems.length = 1 ∧
    ∀ p ∈ (validate ⟨[([] : Rec)], []⟩).problems, p.err = "archive missing id" := by
  decide

/-- C9 (amended): `Memory.validate` re-validates every record of both kinds
(each is either counted as checked or reported) and does not stop at the
first failing record: *every* failing record contributes a problem carrying
its kind, id and error.  Per failing record, however, only the record's
first violation is reported (the per-record validator raises at the first
failed check — see the counterexample), not every violation.  Duplicate ids
within a kind are flagged as `"duplicate id"` violations, the report's `ok`
flag is exactly "no problems" (clean logs give `⟨total, true, []⟩`), and the
method never mutates the logs. -/
theorem validate_diagnostic_report (mm : Memory) :
    (validateOp mm).1 = mm ∧
    ((validate mm).ok = true ↔ (validate mm).problems = []) ∧
    (validate mm).checked + (validate mm).problems.length
      = mm.arc.length + mm.sh.length ∧
    (∀ p ∈ (validate mm).problems, p.kind = "archive" ∨ p.kind = "shadow") ∧
    (∀ r ∈ mm.arc, ∀ e, _v_arc r = .error e →
      ∃ p ∈ (validate mm).problems, p.kind = "archive" ∧ p.id = rGet? r "id" ∧
        p.err = e ∧ p.item = r) ∧
    (∀ r ∈ mm.sh, ∀ e, _v_sh r = .error e →
      ∃ p ∈ (validate mm).problems, p.kind = "shadow" ∧ p.id = rGet? r "id" ∧
        p.err = e ∧ p.item = r) ∧
    ((∀ r ∈ mm.arc, _v_arc r = .ok ()) →
      ¬ (mm.arc.map (fun r => rGetD r "id" Val.vNull)).Nodup →
      ∃ p ∈ (validate mm).problems, p.kind = "archive" ∧ p.err = "duplicate id") ∧
    ((∀ r ∈ mm.arc, _v_arc r = .ok ()) → (∀ r ∈ mm.sh, _v_sh r = .ok ()) →
      (mm.arc.map (fun r => rGetD r "id" Val.vNull)).Nodup →
      (mm.sh.map (fun r => rGetD r "id" Val.vNull)).Nodup →
      validate mm = ⟨mm.arc.length + mm.sh.length, true, []⟩) := by
  have hprob : (validate mm).problems =
      (validateGo "archive" _v_arc mm.arc []).2 ++ (validateGo "shadow" _v_sh mm.sh []).2 := rfl
  have hchk : (validate mm).checked =
      (validateGo "archive" _v_arc mm.arc []).1 + (validateGo "shadow" _v_sh mm.sh []).1 := rfl
  refine ⟨rfl, ?_, ?_, ?_, ?_, ?_, ?_, ?_⟩
  · show ((validate mm).problems.isEmpty = true) ↔ _
    rw [List.isEmpty_iff]
  · rw [hchk, hprob, List.length_append]
    have h1 := validateGo_counts "archive" _v_arc mm.arc []
    have h2 := validateGo_counts "shadow" _v_sh mm.sh []
    omega
  · intro p hp
    rw [hprob] at hp
    rcases List.mem_append.mp hp with h | h
    · exact Or.inl (validateGo_kinds _ _ _ _ p h)
    · exact Or.inr (validateGo_kinds _ _ _ _ p h)
  · intro r hr e he
    obtain ⟨p, hp, hps⟩ := validateGo_records_error "archive" _v_arc mm.arc [] r hr e he
    exact ⟨p, by rw [hprob]; exact List.mem_append_left _ hp, hps⟩
  · intro r hr e he
    obtain ⟨p, hp, hps⟩ := validateGo_records_error "shadow" _v_sh mm.sh [] r hr e he
    exact ⟨p, by rw [hprob]; exact List.mem_append_right _ hp, hps⟩
  · intro hok hnd
    obtain ⟨p, hp, he⟩ := validateGo_dup_flag "archive" _v_arc mm.arc hok [] (Or.inl hnd)
    exact ⟨p, by rw [hprob]; exact List.mem_append_left _ hp,
      validateGo_kinds _ _ _ _ p hp, he⟩
  · intro hokA hokS hndA hndS
    have hA := validateGo_clean "archive" _v_arc mm.arc hokA [] (by simp) hndA
    have hS := validateGo_clean "shadow" _v_sh mm.sh hokS [] (by simp) hndS
    have hcA := validateGo_counts "archive" _v_arc mm.arc []
    have hcS := validateGo_counts "shadow" _v_sh mm.sh []
    rw [hA] at hcA
    rw [hS] at hcS
    show (⟨_, _, _⟩ : Report) = _
    rw [hA, hS]
    simp only [List.append_nil, List.isEmpty_nil]
    congr 1
    simp only [List.length_nil] at hcA hcS
    omega

/-- Witness for C9 (amended): an invalid record (the empty dict, which fails with
`archive missing id`) is reported with its kind and id, and a duplicated id
between two valid records is flagged. -/
theorem validate_diagnostic_report_witness :
    (∃ p ∈ (validate ⟨[[]], []⟩).problems, p.kind = "archive" ∧
        p.id = rGet? ([] : Rec) "id" ∧ p.err = "archive missing id" ∧ p.item = []) ∧
    (∃ p ∈ (validate ⟨[goodArcRec, goodArcRec], []⟩).problems,
        p.kind = "archive" ∧ p.err = "duplicate id") :=
  ⟨(validate_diagnostic_report ⟨[[]], []⟩).2.2.2.2.1 [] (by decide)
      "archive missing id" (by decide),
   (validate_diagnostic_report ⟨[goodArcRec, goodArcRec], []⟩).2.2.2.2.2.2.1
      (by decide) (by decide)⟩

/-! ### `stitch` (C5) -/

/-- C5 counterexample: on a one-record window with zero question-type and
zero decision-type records, `0 ≥ 0` holds, so the claim's "if and only if
questions ≥ decisions" demands a Shadow record — but `stitch` writes none
(the guard is `questions and len(questions) >= len(decisions)`, which
additionally requires a non-empty questions list): the shadow log stays
empty and no `shadow_entry` is reported while the insight is appended. -/
theorem stitch_q0_d0_no_shadow_counterexample :
    ((stitch ⟨[insRecC5], []⟩ false "A1" "S1" "2025-01-08").map
        (fun res => (res.1.shadow, res.2.shadow_entry.isSome, res.2.insights.length))
      = .ok ([], false, 1)) ∧
    ([insRecC5].filter (fun r => rGet? r "type" == some (Val.vStr "вопрос"))).length = 0 ∧
    ([insRecC5].filter (fun r => rGet? r "type" == some (Val.vStr "решение"))).length = 0 ∧
    (0 : Nat) ≥ (0 : Nat) := by
  refine ⟨by decide, by decide, by decide, le_refl 0⟩

/-- A string starting with a non-empty string is non-empty. -/
theorem append_ne_empty_left (a b : String) (h : a ≠ "") : a ++ b ≠ "" := by
  intro he
  apply h
  have hd : (a ++ b).data = ([] : List Char) := congrArg String.data he
  rw [String.data_append] at hd
  rcases List.append_eq_nil.mp hd with ⟨h1, _⟩
  cases a
  simp only at h1
  rw [h1]

/-- The tag pass succeeds when every window record's `tags` is iterable. -/
theorem tagsOfRecs_isOk (l : List Rec)
    (h : ∀ r ∈ l, (tagStrs (rGetD r "tags" Val.vNil)).isOk = true) :
    ∃ v, tagsOfRecs l = .ok v := by
  induction l with
  | nil => exact ⟨[], rfl⟩
  | cons r rest ih =>
    obtain ⟨v, hv⟩ := ih (fun x hx => h x (List.mem_cons_of_mem r hx))
    have hr := h r (List.mem_cons_self r rest)
    cases ht : tagStrs (rGetD r "tags" Val.vNil) with
    | error e => rw [ht] at hr; exact absurd hr (by simp [Except.isOk, Except.toBool])
    | ok ts =>
      refine ⟨ts :: v, ?_⟩
      unfold tagsOfRecs
      rw [ht, exbind_ok, hv, exbind_ok]

/-- Normalization of the synthesized insight entry: the four required fields
are non-empty strings, so validation succeeds and appends the defaults
`evidence`, the generated `id` and the default `next_review` (in source
order; `owner` and `tags` are already present). -/
theorem mmValidate_insight (gA dR content : String) (tg : String) (hc : content ≠ "") :
    mmValidateArchiveEntry gA dR
      [("title", Val.vStr "Stitch summary"), ("type", Val.vStr "инсайт"),
       ("content", Val.vStr content), ("confidence", Val.vStr "сред"),
       ("owner", Val.vStr "system.stitch"), ("tags", vStrs ["§stitch", tg])] =
    .ok ([("title", Val.vStr "Stitch summary"), ("type", Val.vStr "инсайт"),
          ("content", Val.vStr content), ("confidence", Val.vStr "сред"),
          ("owner", Val.vStr "system.stitch"), ("tags", vStrs ["§stitch", tg]),
          ("evidence", Val.vNil), ("id", Val.vStr gA), ("next_review", Val.vStr dR)]) := by
  have hcb : (content == "") = false := by
    simp only [beq_eq_false_iff_ne, ne_eq]
    exact hc
  unfold mmValidateArchiveEntry
  simp [rGet?, rSetD, rSet, rHasKey, hcb, List.find?]

/-- Normalization of the synthesized shadow entry: all five required fields
are non-empty strings, so validation succeeds and appends the generated `id`
and the default `review_after`. -/
theorem mmValidate_shadow (gS dR pat : String) (hp : pat ≠ "") :
    mmValidateShadowEntry gS dR
      [("signal", Val.vStr "open_questions"), ("pattern", Val.vStr pat),
       ("hypothesis", Val.vStr "Требуется дополнительная проработка выявленных вопросов."),
       ("counter", Val.vStr "Проверить следующую серию записей и подтвердить тренд."),
       ("confidence", Val.vStr "сред")] =
    .ok ([("signal", Val.vStr "open_questions"), ("pattern", Val.vStr pat),
          ("hypothesis", Val.vStr "Требуется дополнительная проработка выявленных вопросов."),
          ("counter", Val.vStr "Проверить следующую серию записей и подтвердить тренд."),
          ("confidence", Val.vStr "сред"),
          ("id", Val.vStr gS), ("review_after", Val.vStr dR)]) := by
  have hpb : (pat == "") = false := by
    simp only [beq_eq_false_iff_ne, ne_eq]
    exact hp
  unfold mmValidateShadowEntry
  simp [rGet?, rSetD, rSet, rHasKey, hpb, List.find?]

/-- C5 (amended): over the window of the last 8 (88 under rule 88) records:
an empty window returns a zero-insight summary and appends nothing; a
non-empty window appends exactly one Archive record, of type `инсайт`
(insight), carrying the generated id, and additionally appends exactly one
Shadow record if and only if the window holds **at least one** question-type
record and the number of questions is ≥ the number of decisions (the
non-emptiness conjunct is what the original claim misses: at 0 questions and
0 decisions no Shadow record is written). -/
theorem stitch_window_insight_and_shadow_rule (st : MMState) (rule88 : Bool)
    (gA gS dR : String)
    (htags : ∀ r ∈ stitchWindow st rule88,
        (tagStrs (rGetD r "tags" Val.vNil)).isOk = true) :
    (stitchWindow st rule88 = [] →
      stitch st rule88 gA gS dR =
        .ok (st, ⟨if rule88 then "rule88" else "rule8",
                  if rule88 then 88 else 8, 0, [], none, none⟩)) ∧
    (stitchWindow st rule88 ≠ [] →
      ∃ ins res, stitch st rule88 gA gS dR = .ok res ∧
        res.1.archive = st.archive ++ [ins] ∧
        rGet? ins "type" = some (Val.vStr "инсайт") ∧
        rGet? ins "id" = some (Val.vStr gA) ∧
        res.2.insights = [Val.vStr gA] ∧
        res.2.insight_entry = some ins ∧
        ((¬ (stitchQs st rule88).isEmpty = true ∧
            (stitchDs st rule88).length ≤ (stitchQs st rule88).length) →
          ∃ sh, res.1.shadow = st.shadow ++ [sh] ∧
            rGet? sh "signal" = some (Val.vStr "open_questions") ∧
            res.2.shadow_entry = some sh) ∧
        (¬ (¬ (stitchQs st rule88).isEmpty = true ∧
            (stitchDs st rule88).length ≤ (stitchQs st rule88).length) →
          res.1.shadow = st.shadow ∧ res.2.shadow_entry = none)) := by
  constructor
  · intro hempty
    unfold stitchWindow at hempty
    simp only [stitch]
    rw [hempty]
    simp only [List.isEmpty_nil, if_true]
    rfl
  · intro hne
    unfold stitchWindow at hne htags
    obtain ⟨v, hv⟩ := tagsOfRecs_isOk _ htags
    simp only [stitch]
    rw [if_neg (by
      simp only [List.isEmpty_iff]
      exact hne)]
    rw [hv, exbind_ok]
    set tags := sortStrings v.flatten.dedup with htagsdef
    set nr := (st.archive.drop (st.archive.length - (if rule88 then 88 else 8))).length
      with hnr
    set nd := ((st.archive.drop (st.archive.length - (if rule88 then 88 else 8))).filter
      (fun r => rGet? r "type" == some (Val.vStr "решение"))).length with hnd
    set nq := ((st.archive.drop (st.archive.length - (if rule88 then 88 else 8))).filter
      (fun r => rGet? r "type" == some (Val.vStr "вопрос"))).length with hnq
    set base := "Проанализировано " ++ toString nr ++ " записей: решений — " ++
      toString nd ++ ", вопросов — " ++ toString nq ++ "." with hbase
    have hbasene : base ≠ "" := by
      rw [hbase]
      repeat apply append_ne_empty_left
      decide
    have hcontent : (if tags.isEmpty then base
        else base ++ " Активные теги: " ++ String.intercalate ", " (tags.take 5) ++ ".") ≠ "" := by
      split
      · exact hbasene
      · repeat apply append_ne_empty_left
        decide
    rw [mmValidate_insight gA dR _ _ hcontent, exbind_ok]
    set content := (if tags.isEmpty then base
        else base ++ " Активные теги: " ++ String.intercalate ", " (tags.take 5) ++ ".")
      with hcont
    set written : Rec :=
      [("title", Val.vStr "Stitch summary"), ("type", Val.vStr "инсайт"),
       ("content", Val.vStr content), ("confidence", Val.vStr "сред"),
       ("owner", Val.vStr "system.stitch"),
       ("tags", vStrs ["§stitch", if rule88 then "§rule88" else "§rule8"]),
       ("evidence", Val.vNil), ("id", Val.vStr gA), ("next_review", Val.vStr dR)]
      with hwr
    have hwid : rGetD written "id" Val.vNull = Val.vStr gA := by
      rw [hwr]
      simp [rGetD, rGet?]
    have hwty : rGet? written "type" = some (Val.vStr "инсайт") := by
      rw [hwr]
      simp [rGet?]
    have hwid2 : rGet? written "id" = some (Val.vStr gA) := by
      rw [hwr]
      simp [rGet?]
    refine ⟨written, ?_⟩
    by_cases hcond : ¬ ((st.archive.drop (st.archive.length -
          (if rule88 then 88 else 8))).filter
          (fun r => rGet? r "type" == some (Val.vStr "вопрос"))).isEmpty = true ∧
        nd ≤ nq
    · set pat := "Количество открытых вопросов (" ++ toString nq ++
        ") не уступает количеству решений (" ++ toString nd ++ ")." with hpat
      have hpatne : pat ≠ "" := by
        rw [hpat]
        repeat apply append_ne_empty_left
        decide
      rw [if_pos hcond, mmValidate_shadow gS dR _ hpatne, exbind_ok]
      refine ⟨_, rfl, rfl, hwty, hwid2, by rw [hwid], rfl, ?_, ?_⟩
      · intro _
        refine ⟨_, rfl, ?_, rfl⟩
        simp [rGet?]
      · intro hnc
        exact absurd hcond hnc
    · rw [if_neg hcond]
      refine ⟨_, rfl, rfl, hwty, hwid2, by rw [hwid], rfl, ?_, ?_⟩
      · intro hc2
        exact absurd hc2 hcond
      · intro _
        exact ⟨rfl, rfl⟩

/-- Witness for C5 (amended): a one-question window (1 question ≥ 0
decisions, questions non-empty). -/
theorem stitch_window_insight_and_shadow_rule_witness :
    ∃ ins res, stitch ⟨[qRecC5], []⟩ false "A1" "S1" "2025-01-08" = .ok res ∧
      res.1.archive = [qRecC5] ++ [ins] ∧
      rGet? ins "type" = some (Val.vStr "инсайт") ∧
      rGet? ins "id" = some (Val.vStr "A1") ∧
      res.2.insights = [Val.vStr "A1"] ∧
      res.2.insight_entry = some ins ∧
      ((¬ (stitchQs ⟨[qRecC5], []⟩ false).isEmpty = true ∧
          (stitchDs ⟨[qRecC5], []⟩ false).length ≤ (stitchQs ⟨[qRecC5], []⟩ false).length) →
        ∃ sh, res.1.shadow = [] ++ [sh] ∧
          rGet? sh "signal" = some (Val.vStr "open_questions") ∧
          res.2.shadow_entry = some sh) ∧
      (¬ (¬ (stitchQs ⟨[qRecC5], []⟩ false).isEmpty = true ∧
          (stitchDs ⟨[qRecC5], []⟩ false).length ≤ (stitchQs ⟨[qRecC5], []⟩ false).length) →
        res.1.shadow = [] ∧ res.2.shadow_entry = none) :=
  (stitch_window_insight_and_shadow_rule ⟨[qRecC5], []⟩ false "A1" "S1" "2025-01-08"
    (by decide)).2 (by decide)

end Iskra
